import Mathlib

/-!
The `ae` event reactor (`src/ae.go`): a shallow embedding and its properties.

The Go program is a single-threaded reactor over `epoll`.  Its state is the
`AeLoop` struct; the operating system (the `epoll` calls and the clock
`GetMsTime`) and the registered callbacks are outside the program and are
passed to the embedded functions as explicit arguments.

Conventions of the embedding

* Go `int`, `int64` values are Lean `Int`s.  Where the source computes with
  caller-supplied numbers (`fd * -1`, `GetMsTime() + interval`,
  `nearestTime() - GetMsTime()`, `int32(fd)`) the two's-complement wrap-around
  is explicit (`wrapInt64`, `wrapInt32`); so is it for the counter
  `timeEventNextId` (`loop.timeEventNextId++`).
* Go `uint32` event masks are `Nat`s, with the bit operations of `Nat`.
* `map[int]*AeFileEvent` is a function `Int → Option AeFileEvent`: the source
  only ever looks keys up and compares the result with `nil`, so a missing key
  and a key bound to `nil` are the same thing (`none`).
* `*AeTimeEvent` is an address (`Ptr`) into a store of nodes; the chain of
  `next` pointers that starts at `loop.TimeEvents` is the list of the
  addresses of its nodes.
* a callback (`FileProc`, `TimeProc`) and an `interface{}` payload are names
  (`Nat`); what a callback does when it is called is given by `Procs`.
* `log.Printf` is not modelled.
-/

namespace Ae

/-! ## Machine integers -/

/-- Two's-complement value of an `int64` result. -/
def wrapInt64 (x : Int) : Int :=
  (x + 9223372036854775808) % 18446744073709551616 - 9223372036854775808

/-- Two's-complement value of the conversion `int32(x)`. -/
def wrapInt32 (x : Int) : Int :=
  (x + 2147483648) % 4294967296 - 2147483648

/-- The values of the Go type `int` (64 bit). -/
abbrev isInt64 (x : Int) : Prop :=
  -9223372036854775808 ≤ x ∧ x < 9223372036854775808

/-- Bitwise complement `^x` of a `uint32`. -/
def notUint32 (x : Nat) : Nat := 4294967295 ^^^ x

/-! ## Constants -/

abbrev FeType := Int

def AE_READABLE : FeType := 1
def AE_WRITABLE : FeType := 2

abbrev TeType := Int

def AE_NORMAL : TeType := 1
def AE_ONCE : TeType := 2

/-- Value of `unix.EPOLLIN` (golang.org/x/sys/unix, Linux). -/
def EPOLLIN : Nat := 1
/-- Value of `unix.EPOLLOUT` (golang.org/x/sys/unix, Linux). -/
def EPOLLOUT : Nat := 4
/-- Value of `unix.EPOLL_CTL_ADD` (golang.org/x/sys/unix, Linux). -/
def EPOLL_CTL_ADD : Int := 1
/-- Value of `unix.EPOLL_CTL_DEL` (golang.org/x/sys/unix, Linux). -/
def EPOLL_CTL_DEL : Int := 2
/-- Value of `unix.EPOLL_CTL_MOD` (golang.org/x/sys/unix, Linux). -/
def EPOLL_CTL_MOD : Int := 3

/-! ## Data model -/

/-- A Go function value of type `FileProc`, by name. -/
abbrev FileProc := Nat
/-- A Go function value of type `TimeProc`, by name. -/
abbrev TimeProc := Nat
/-- An `interface{}` payload, by name. -/
abbrev Extra := Nat
/-- Address of a heap-allocated `AeTimeEvent`. -/
abbrev Ptr := Nat

structure AeFileEvent where
  fd : Int
  mask : FeType
  proc : FileProc
  extra : Extra
deriving DecidableEq, Repr

/-- The fields of `AeTimeEvent` other than `next`; the `next` pointers are the
order of `AeLoop.TimeEvents`. -/
structure AeTimeEvent where
  id : Int
  mask : TeType
  when : Int
  interval : Int
  proc : TimeProc
  extra : Extra
deriving DecidableEq, Repr, Inhabited

/-- The struct `AeLoop`, together with the part of the Go heap that holds the
`AeTimeEvent` nodes: `teMem p` is the node at address `p`, and `teBrk` is the
first address not handed out yet (`var te AeTimeEvent ... &te` takes it). -/
structure AeLoop where
  FileEvents : Int → Option AeFileEvent
  TimeEvents : List Ptr
  fileEventFd : Int
  timeEventNextId : Int
  stop : Bool
  teMem : Ptr → AeTimeEvent
  teBrk : Ptr

/-- One call `unix.EpollCtl(epfd, op, fd, &unix.EpollEvent{Fd: evFd, Events: events})`. -/
structure EpollCtlCall where
  epfd : Int
  op : Int
  fd : Int
  evFd : Int
  events : Nat
deriving DecidableEq, Repr

/-- The answer of the kernel to an `EpollCtl` call: `true` when `err == nil`. -/
abbrev EpollCtl := EpollCtlCall → Bool

/-! ## File events -/

/-- The table `fe2ep`. -/
def fe2ep : List Nat := [0, EPOLLIN, EPOLLOUT]

/-- The index expression `fe2ep[mask]` for a mask that is not a constant: a
run-time panic (`none`) when the index is outside `0..2`. -/
def fe2epAt (mask : FeType) : Option Nat :=
  if 0 ≤ mask then fe2ep.get? mask.toNat else none

def getFeKey (fd : Int) (mask : FeType) : Int :=
  if mask = AE_READABLE then fd else wrapInt64 (fd * -1)

def AeLoop.getEpollMask (loop : AeLoop) (fd : Int) : Nat :=
  let ev : Nat := 0
  let ev := if loop.FileEvents (getFeKey fd AE_READABLE) ≠ none
    then ev ||| fe2ep.get ⟨AE_READABLE.toNat, by decide⟩ else ev
  let ev := if loop.FileEvents (getFeKey fd AE_WRITABLE) ≠ none
    then ev ||| fe2ep.get ⟨AE_WRITABLE.toNat, by decide⟩ else ev
  ev

/-- The method `AddFileEvent`.  The result is the loop after the call and the
`EpollCtl` calls made, in order; `none` is the index panic of `fe2ep[mask]`. -/
def AeLoop.AddFileEvent (loop : AeLoop) (epollCtl : EpollCtl) (fd : Int) (mask : FeType)
    (proc : FileProc) (extra : Extra) : Option (AeLoop × List EpollCtlCall) :=
  let ev := loop.getEpollMask fd
  match fe2epAt mask with
  | none => none
  | some bit =>
    if ev &&& bit ≠ 0 then
      some (loop, [])
    else
      let op := if ev ≠ 0 then EPOLL_CTL_MOD else EPOLL_CTL_ADD
      let ev := ev ||| bit
      let call : EpollCtlCall := ⟨loop.fileEventFd, op, fd, wrapInt32 fd, ev⟩
      if epollCtl call = false then
        some (loop, [call])
      else
        let fe : AeFileEvent := ⟨fd, mask, proc, extra⟩
        some ({ loop with
          FileEvents := Function.update loop.FileEvents (getFeKey fd mask) (some fe) }, [call])

/-- The method `RemoveFileEvent`.  The error of `EpollCtl` is only logged, so
the kernel's answer is no argument.  `none` is the index panic of `fe2ep[mask]`. -/
def AeLoop.RemoveFileEvent (loop : AeLoop) (fd : Int) (mask : FeType) :
    Option (AeLoop × List EpollCtlCall) :=
  let ev := loop.getEpollMask fd
  match fe2epAt mask with
  | none => none
  | some bit =>
    let ev := ev &&& notUint32 bit
    let op := if ev ≠ 0 then EPOLL_CTL_MOD else EPOLL_CTL_DEL
    let call : EpollCtlCall := ⟨loop.fileEventFd, op, fd, wrapInt32 fd, ev⟩
    some ({ loop with
      FileEvents := Function.update loop.FileEvents (getFeKey fd mask) none }, [call])

/-- The `EpollCtl` call that `AddFileEvent` makes for a direction whose bit is
`bit`, when it makes one. -/
def AddFileEvent.call (loop : AeLoop) (fd : Int) (bit : Nat) : EpollCtlCall :=
  ⟨loop.fileEventFd, if loop.getEpollMask fd ≠ 0 then EPOLL_CTL_MOD else EPOLL_CTL_ADD,
    fd, wrapInt32 fd, loop.getEpollMask fd ||| bit⟩

/-- The `EpollCtl` call that `RemoveFileEvent` makes for a direction whose bit is `bit`. -/
def RemoveFileEvent.call (loop : AeLoop) (fd : Int) (bit : Nat) : EpollCtlCall :=
  ⟨loop.fileEventFd,
    if loop.getEpollMask fd &&& notUint32 bit ≠ 0 then EPOLL_CTL_MOD else EPOLL_CTL_DEL,
    fd, wrapInt32 fd, loop.getEpollMask fd &&& notUint32 bit⟩

/-- A loop with no file event and no time event (the Go value
`AeLoop{FileEvents: map[int]*AeFileEvent{}, fileEventFd: epfd, timeEventNextId: 1}`). -/
def emptyLoop (epfd : Int) : AeLoop :=
  { FileEvents := fun _ => none
    TimeEvents := []
    fileEventFd := epfd
    timeEventNextId := 1
    stop := false
    teMem := fun _ => default
    teBrk := 0 }

/-! ## Time events -/

/-- The method `addTimeEvent`; `now` is the reading of `GetMsTime()`.  The new
node is allocated at the address `teBrk` and linked in front of the chain. -/
def AeLoop.addTimeEvent (loop : AeLoop) (now : Int) (mask : TeType) (interval : Int)
    (proc : TimeProc) (extra : Extra) : AeLoop × Int :=
  let id := loop.timeEventNextId
  let te : AeTimeEvent :=
    { id := id, mask := mask, interval := interval, when := wrapInt64 (now + interval),
      proc := proc, extra := extra }
  let p := loop.teBrk
  ({ loop with
      timeEventNextId := wrapInt64 (loop.timeEventNextId + 1)
      teMem := Function.update loop.teMem p te
      teBrk := p + 1
      TimeEvents := p :: loop.TimeEvents }, id)

/-- The scan of `RemoveTimeEvent` over the chain: the first node whose `id` is
`id` is unlinked and the scan stops (`break`). -/
def RemoveTimeEvent.unlink (mem : Ptr → AeTimeEvent) (id : Int) : List Ptr → List Ptr
  | [] => []
  | p :: rest => if (mem p).id = id then rest else p :: RemoveTimeEvent.unlink mem id rest

def AeLoop.RemoveTimeEvent (loop : AeLoop) (id : Int) : AeLoop :=
  { loop with TimeEvents := RemoveTimeEvent.unlink loop.teMem id loop.TimeEvents }

/-- A Go `error` value. -/
abbrev GoError := String

/-- The function `AeLoopCreate`; the argument is the result of `unix.EpollCreate1(0)`. -/
def AeLoopCreate (epollCreate1 : Except GoError Int) : Except GoError AeLoop :=
  match epollCreate1 with
  | .error err => .error err
  | .ok epollFd => .ok (emptyLoop epollFd)

/-- The method `nearestTime`; `now` is the reading of `GetMsTime()`. -/
def AeLoop.nearestTime (loop : AeLoop) (now : Int) : Int :=
  loop.TimeEvents.foldl
    (fun nearest p => if (loop.teMem p).when < nearest then (loop.teMem p).when else nearest)
    (wrapInt64 (now + 1000))

/-! ## The wait phase -/

/-- A `unix.EpollEvent` (`Fd` is an `int32`). -/
structure EpollEvent where
  Events : Nat
  Fd : Int
deriving DecidableEq, Repr

/-- What `unix.EpollWait(epfd, events[:], msec)` gives back: the count `n`
(negative with an error) and the content of the array `events` after the call
(entries beyond the list are the zero value).  The kernel reports at most
`len(events) = 128` events. -/
structure EpollWaitResult where
  n : Int
  events : List EpollEvent
  n_le : n ≤ 128

/-- The kernel's answer to `unix.EpollWait(epfd, events[:], msec)`, by `epfd` and `msec`. -/
abbrev EpollWait := Int → Int → EpollWaitResult

/-- Body of the loop `for i := 0; i < n; i++` of `AeWait`. -/
def AeWait.collectFileEvent (loop : AeLoop) (res : EpollWaitResult)
    (fes : List AeFileEvent) (i : Nat) : List AeFileEvent :=
  let ev := res.events.getD i ⟨0, 0⟩
  let fes :=
    if ev.Events &&& EPOLLIN ≠ 0 then
      match loop.FileEvents (getFeKey ev.Fd AE_READABLE) with
      | some fe => fes ++ [fe]
      | none => fes
    else fes
  let fes :=
    if ev.Events &&& EPOLLOUT ≠ 0 then
      match loop.FileEvents (getFeKey ev.Fd AE_WRITABLE) with
      | some fe => fes ++ [fe]
      | none => fes
    else fes
  fes

/-- The time-event scan at the end of `AeWait` (`if p != nil`), with `now` the
reading of `GetMsTime()`. -/
def AeWait.collectTimeEvents (loop : AeLoop) (now : Int) : List Ptr :=
  match loop.TimeEvents with
  | [] => []
  | p :: _ => if (loop.teMem p).when ≤ now then [p] else []

/-- Result of `AeWait`: the two slices, and the `msec` argument of its
`unix.EpollWait` call. -/
structure AeWaitResult where
  tes : List Ptr
  fes : List AeFileEvent
  timeout : Int

/-- The method `AeWait`.  `now1` is the clock reading inside `nearestTime`,
`now2` the one of the timeout computation, `now3` the one of the time-event
scan. -/
def AeLoop.AeWait (loop : AeLoop) (now1 now2 now3 : Int) (epollWait : EpollWait) :
    AeWaitResult :=
  let timeout := wrapInt64 (loop.nearestTime now1 - now2)
  let timeout := if timeout ≤ 0 then 10 else timeout
  let res := epollWait loop.fileEventFd timeout
  let fes := (List.range res.n.toNat).foldl (AeWait.collectFileEvent loop res) []
  let tes := AeWait.collectTimeEvents loop now3
  { tes := tes, fes := fes, timeout := timeout }

/-! ## The process phase -/

/-- What the callbacks do.  A callback gets the loop and may change it; `σ` is
everything else it can read and change (sockets, application data). -/
structure Procs (σ : Type) where
  fileProc : FileProc → σ → AeLoop → Int → Extra → σ × AeLoop
  timeProc : TimeProc → σ → AeLoop → Int → Extra → σ × AeLoop

/-- A callback invocation made by `AeProcess`, with its arguments. -/
inductive Invocation where
  | time (proc : TimeProc) (id : Int) (extra : Extra)
  | file (proc : FileProc) (fd : Int) (extra : Extra)
deriving DecidableEq, Repr

/-- State of a run of `AeProcess`: the world of the callbacks, the loop, and
the invocations made so far. -/
structure Run (σ : Type) where
  world : σ
  loop : AeLoop
  calls : List Invocation

/-- The assignment `te.when = when` through the pointer `te`. -/
def AeLoop.setWhen (loop : AeLoop) (te : Ptr) (when : Int) : AeLoop :=
  { loop with teMem := Function.update loop.teMem te { loop.teMem te with when := when } }

/-- Body of the loop `for _, te := range tes` of `AeProcess`; `now` is the
reading of `GetMsTime()` that the `else` branch takes. -/
def AeProcess.timeEvent {σ : Type} (procs : Procs σ) (now : Int) (r : Run σ) (te : Ptr) :
    Run σ :=
  let n := r.loop.teMem te
  let out := procs.timeProc n.proc r.world r.loop n.id n.extra
  let calls := r.calls ++ [Invocation.time n.proc n.id n.extra]
  let loop := out.2
  if (loop.teMem te).mask = AE_ONCE then
    { world := out.1, loop := loop.RemoveTimeEvent (loop.teMem te).id, calls := calls }
  else
    { world := out.1
      loop := loop.setWhen te (wrapInt64 (now + (loop.teMem te).interval))
      calls := calls }

/-- The loop as the callback of `te` leaves it, in the iteration of `te`
started from `r`. -/
def AeProcess.afterCallback {σ : Type} (procs : Procs σ) (r : Run σ) (te : Ptr) : AeLoop :=
  (procs.timeProc (r.loop.teMem te).proc r.world r.loop (r.loop.teMem te).id
    (r.loop.teMem te).extra).2

/-- The loop `for _, te := range tes` of `AeProcess`, from its `i`-th iteration
on; `clock i` is the clock reading of iteration `i`. -/
def AeProcess.timeEvents {σ : Type} (procs : Procs σ) (clock : Nat → Int) :
    Nat → List Ptr → Run σ → Run σ
  | _, [], r => r
  | i, te :: tes, r =>
    AeProcess.timeEvents procs clock (i + 1) tes (AeProcess.timeEvent procs (clock i) r te)

/-- Body of the loop `for _, fe := range fes` of `AeProcess`. -/
def AeProcess.fileEvent {σ : Type} (procs : Procs σ) (r : Run σ) (fe : AeFileEvent) : Run σ :=
  let out := procs.fileProc fe.proc r.world r.loop fe.fd fe.extra
  { world := out.1, loop := out.2, calls := r.calls ++ [Invocation.file fe.proc fe.fd fe.extra] }

/-- The method `AeProcess`, started in the world `world`. -/
def AeLoop.AeProcess {σ : Type} (loop : AeLoop) (procs : Procs σ) (clock : Nat → Int)
    (world : σ) (tes : List Ptr) (fes : List AeFileEvent) : Run σ :=
  let r := AeProcess.timeEvents procs clock 0 tes { world := world, loop := loop, calls := [] }
  fes.foldl (AeProcess.fileEvent procs) r

/-! ## Executions -/

/-- One call of a method of the registration surface. -/
inductive ApiStep : AeLoop → AeLoop → Prop where
  | addFile (l l' : AeLoop) (epollCtl : EpollCtl) (fd : Int) (mask : FeType) (proc : FileProc)
      (extra : Extra) (calls : List EpollCtlCall) :
      l.AddFileEvent epollCtl fd mask proc extra = some (l', calls) → ApiStep l l'
  | removeFile (l l' : AeLoop) (fd : Int) (mask : FeType) (calls : List EpollCtlCall) :
      l.RemoveFileEvent fd mask = some (l', calls) → ApiStep l l'
  | addTime (l : AeLoop) (now : Int) (mask : TeType) (interval : Int) (proc : TimeProc)
      (extra : Extra) : ApiStep l (l.addTimeEvent now mask interval proc extra).1
  | removeTime (l : AeLoop) (id : Int) : ApiStep l (l.RemoveTimeEvent id)

/-- Callbacks that change the loop only through `AddFileEvent`,
`RemoveFileEvent`, `addTimeEvent` and `RemoveTimeEvent`. -/
def Procs.ApiOnly {σ : Type} (procs : Procs σ) : Prop :=
  (∀ f w l fd extra, Relation.ReflTransGen ApiStep l (procs.fileProc f w l fd extra).2) ∧
  (∀ f w l id extra, Relation.ReflTransGen ApiStep l (procs.timeProc f w l id extra).2)

/-- Loop states reachable from `AeLoopCreate`: by calls of the registration
surface, and by calls of `AeProcess` on pointers to existing nodes with
callbacks that stay within the registration surface. -/
inductive Reachable : AeLoop → Prop where
  | create (epollFd : Int) : Reachable (emptyLoop epollFd)
  | api (l l' : AeLoop) : Reachable l → ApiStep l l' → Reachable l'
  | process {σ : Type} (l : AeLoop) (procs : Procs σ) (clock : Nat → Int) (world : σ)
      (tes : List Ptr) (fes : List AeFileEvent) :
      Reachable l → procs.ApiOnly → (∀ te ∈ tes, te < l.teBrk) →
      Reachable (l.AeProcess procs clock world tes fes).loop

/-- A call of `addTimeEvent` (with the clock reading `now`) or of `RemoveTimeEvent`. -/
inductive TimeOp where
  | add (now : Int) (mask : TeType) (interval : Int) (proc : TimeProc) (extra : Extra)
  | remove (id : Int)
deriving DecidableEq, Repr

/-- Runs the calls `ops` in order; the result is the final loop and the ids
returned by the `addTimeEvent` calls, in call order. -/
def runTimeOps : AeLoop → List TimeOp → AeLoop × List Int
  | loop, [] => (loop, [])
  | loop, TimeOp.add now mask interval proc extra :: ops =>
    let out := loop.addTimeEvent now mask interval proc extra
    let rest := runTimeOps out.1 ops
    (rest.1, out.2 :: rest.2)
  | loop, TimeOp.remove id :: ops => runTimeOps (loop.RemoveTimeEvent id) ops

/-- Whether a call is a call of `addTimeEvent`. -/
def TimeOp.isAdd : TimeOp → Bool
  | TimeOp.add _ _ _ _ _ => true
  | TimeOp.remove _ => false

/-- The spec's "minimum next-fire timestamp" of the collection: `t` is the
`when` of a node of the chain, and no node has a smaller `when`. -/
def AeLoop.isMinimumWhen (loop : AeLoop) (t : Int) : Prop :=
  (∃ p ∈ loop.TimeEvents, (loop.teMem p).when = t) ∧
  ∀ p ∈ loop.TimeEvents, t ≤ (loop.teMem p).when

/-! ## Predicates on the time-event store -/

/-- The node `b` is the node `a` up to the field `when`. -/
def AeTimeEvent.sameButWhen (b a : AeTimeEvent) : Prop :=
  b.id = a.id ∧ b.mask = a.mask ∧ b.interval = a.interval ∧ b.proc = a.proc ∧
  b.extra = a.extra

/-- The store of `l2` extends the one of `l1`: nothing is deallocated, the
nodes of `l1` are as they were, up to `when`, and no node of `l1` that had left
the chain is back in it. -/
def AeLoop.Ext (l1 l2 : AeLoop) : Prop :=
  l1.teBrk ≤ l2.teBrk ∧
  (∀ p, p < l1.teBrk → (l2.teMem p).sameButWhen (l1.teMem p)) ∧
  ∀ p, p < l1.teBrk → p ∈ l2.TimeEvents → p ∈ l1.TimeEvents

/-- The bookkeeping of the time-event store: the id counter is the `int64`
value of the number of nodes created so far plus 1, the node at address `p`
(the `p`-th node created, counted from 0) carries the `int64` value of `p + 1`
as id, the addresses go down along the chain (a node in front was created
later), and the nodes of the chain are allocated. -/
def AeLoop.Store (l : AeLoop) : Prop :=
  l.timeEventNextId = wrapInt64 ((l.teBrk : Int) + 1) ∧
  (∀ p, p < l.teBrk → (l.teMem p).id = wrapInt64 ((p : Int) + 1)) ∧
  l.TimeEvents.Pairwise (fun p q => q < p) ∧
  ∀ p ∈ l.TimeEvents, p < l.teBrk

/-- Every entry of the registry is stored under the key of its own descriptor
and direction. -/
def AeLoop.KeysOk (l : AeLoop) : Prop :=
  ∀ k e, l.FileEvents k = some e → k = getFeKey e.fd e.mask

/-! ## The ready file events, as the spec words them -/

/-- The pairs (descriptor, reported mask) that `EpollWait` reported: the first
`n` entries of the array `events`, in order. -/
def AeWait.batch (res : EpollWaitResult) : List EpollEvent :=
  (List.range res.n.toNat).map (fun i => res.events.getD i ⟨0, 0⟩)

/-- The registered entry of the direction `d` of the descriptor `fd`, in the
spec's words: the file event of the registry whose descriptor is `fd` and whose
direction is `d`.  In a registry that stores every entry under the key of its
own descriptor and direction it can only sit under `getFeKey fd d`. -/
def AeLoop.registeredEntry (loop : AeLoop) (fd : Int) (d : FeType) : Option AeFileEvent :=
  match loop.FileEvents (getFeKey fd d) with
  | some e => if e.fd = fd ∧ e.mask = d then some e else none
  | none => none

/-- What the body of the loop of `AeWait` appends for one reported pair: what
it finds under the two keys of the descriptor. -/
def AeWait.foundEntries (loop : AeLoop) (ev : EpollEvent) : List AeFileEvent :=
  (if ev.Events &&& EPOLLIN ≠ 0 then
      (loop.FileEvents (getFeKey ev.Fd AE_READABLE)).toList else []) ++
  (if ev.Events &&& EPOLLOUT ≠ 0 then
      (loop.FileEvents (getFeKey ev.Fd AE_WRITABLE)).toList else [])

/-! ## The clock -/

/-- The function `GetMsTime`; the argument is the reading
`time.Now().UnixNano()`, an `int64`.  The division of Go truncates toward zero. -/
def GetMsTime (unixNano : Int) : Int :=
  if 0 ≤ unixNano then unixNano / 1000000 else -((-unixNano) / 1000000)

/-! ## Sample states -/

/-- A loop on which descriptor 5 is registered for both directions. -/
def sampleBoth : AeLoop :=
  { emptyLoop 3 with
    FileEvents := fun k =>
      if k = 5 then some ⟨5, AE_READABLE, 7, 9⟩
      else if k = -5 then some ⟨5, AE_WRITABLE, 8, 10⟩
      else none }

/-- A loop on which descriptor 0 is registered as writable, and nothing else. -/
def sampleZero : AeLoop :=
  { emptyLoop 3 with
    FileEvents := fun k => if k = 0 then some ⟨0, AE_WRITABLE, 8, 10⟩ else none }

/-- Callbacks that do nothing. -/
def idleProcs : Procs Unit :=
  { fileProc := fun _ w l _ _ => (w, l)
    timeProc := fun _ w l _ _ => (w, l) }

/-- A loop with one repeating timer (id 1, address 0) of interval 10, added at time 0. -/
def sampleTimer : AeLoop :=
  ((emptyLoop 3).addTimeEvent 0 AE_NORMAL 10 1 0).1

/-- A loop with one repeating timer (id 1, address 0) of interval 5000, added at time 0. -/
def sampleFarTimer : AeLoop :=
  ((emptyLoop 3).addTimeEvent 0 AE_NORMAL 5000 1 0).1

/-- A loop with one one-shot timer (id 1, address 0) of interval 50, added at time 0. -/
def sampleOnce : AeLoop :=
  ((emptyLoop 3).addTimeEvent 0 AE_ONCE 50 1 0).1

/-- Callbacks of which each time callback schedules a repeating timer of
interval 20 (at clock reading 60) and each file callback does nothing. -/
def addingProcs : Procs Unit :=
  { fileProc := fun _ w l _ _ => (w, l)
    timeProc := fun _ w l _ _ => (w, (l.addTimeEvent 60 AE_NORMAL 20 2 0).1) }

/-- A loop with one timer whose interval is the least `int64`, added at time 1000. -/
def sampleOverdue : AeLoop :=
  ((emptyLoop 3).addTimeEvent 1000 AE_NORMAL (-9223372036854775808) 1 0).1

/-- A loop on which the descriptors 5 and 6 are registered as readable, with
the callbacks 1 and 2. -/
def sampleTwo : AeLoop :=
  { emptyLoop 3 with
    FileEvents := fun k =>
      if k = 5 then some ⟨5, AE_READABLE, 1, 0⟩
      else if k = 6 then some ⟨6, AE_READABLE, 2, 0⟩
      else none }

/-- Callbacks of which the file callback 1 calls `RemoveFileEvent(6, AE_READABLE)`
and every other callback does nothing. -/
def removingProcs : Procs Unit :=
  { fileProc := fun f w l _ _ =>
      if f = 1 then
        match l.RemoveFileEvent 6 AE_READABLE with
        | some out => (w, out.1)
        | none => (w, l)
      else (w, l)
    timeProc := fun _ w l _ _ => (w, l) }

/-- A loop with two repeating timers of interval 10: id 1 (address 0) added at
time 0 and id 2 (address 1) added at time 5. -/
def sampleTwoTimers : AeLoop :=
  (runTimeOps (emptyLoop 3) [TimeOp.add 0 AE_NORMAL 10 1 0, TimeOp.add 5 AE_NORMAL 10 2 0]).1

/-! ## File events: lemmas -/

theorem fe2epAt_readable : fe2epAt AE_READABLE = some EPOLLIN := by decide

theorem fe2epAt_writable : fe2epAt AE_WRITABLE = some EPOLLOUT := by decide

/-- The mask computed by `getEpollMask`, by the two lookups. -/
theorem getEpollMask_cases (loop : AeLoop) (fd : Int) :
    loop.getEpollMask fd =
      (if loop.FileEvents (getFeKey fd AE_READABLE) = none then 0 else EPOLLIN) |||
      (if loop.FileEvents (getFeKey fd AE_WRITABLE) = none then 0 else EPOLLOUT) := by
  unfold AeLoop.getEpollMask
  by_cases hr : loop.FileEvents (getFeKey fd AE_READABLE) = none <;>
  by_cases hw : loop.FileEvents (getFeKey fd AE_WRITABLE) = none <;>
  simp [hr, hw] <;> decide

/-- The bit of a direction is in the mask exactly when the direction is registered. -/
theorem getEpollMask_land (loop : AeLoop) (fd : Int) (d : FeType) (bit : Nat)
    (hbit : fe2epAt d = some bit) (hd : d = AE_READABLE ∨ d = AE_WRITABLE) :
    loop.getEpollMask fd &&& bit ≠ 0 ↔ loop.FileEvents (getFeKey fd d) ≠ none := by
  rw [getEpollMask_cases]
  rcases hd with rfl | rfl
  · rw [fe2epAt_readable] at hbit
    cases hbit
    by_cases hr : loop.FileEvents (getFeKey fd AE_READABLE) = none <;>
    by_cases hw : loop.FileEvents (getFeKey fd AE_WRITABLE) = none <;>
    simp [hr, hw] <;> decide
  · rw [fe2epAt_writable] at hbit
    cases hbit
    by_cases hr : loop.FileEvents (getFeKey fd AE_READABLE) = none <;>
    by_cases hw : loop.FileEvents (getFeKey fd AE_WRITABLE) = none <;>
    simp [hr, hw] <;> decide

/-- What `AddFileEvent` returns for a direction whose bit is `bit`. -/
theorem AddFileEvent_eq (loop : AeLoop) (epollCtl : EpollCtl) (fd : Int) (d : FeType)
    (proc : FileProc) (extra : Extra) (bit : Nat) (hbit : fe2epAt d = some bit) :
    loop.AddFileEvent epollCtl fd d proc extra =
      if loop.getEpollMask fd &&& bit ≠ 0 then some (loop, [])
      else if epollCtl (AddFileEvent.call loop fd bit) = false then
        some (loop, [AddFileEvent.call loop fd bit])
      else
        some ({ loop with
            FileEvents := Function.update loop.FileEvents (getFeKey fd d)
              (some ⟨fd, d, proc, extra⟩) },
          [AddFileEvent.call loop fd bit]) := by
  unfold AeLoop.AddFileEvent AddFileEvent.call
  rw [hbit]

/-- What `RemoveFileEvent` returns for a direction whose bit is `bit`. -/
theorem RemoveFileEvent_eq (loop : AeLoop) (fd : Int) (d : FeType) (bit : Nat)
    (hbit : fe2epAt d = some bit) :
    loop.RemoveFileEvent fd d =
      some ({ loop with FileEvents := Function.update loop.FileEvents (getFeKey fd d) none },
        [RemoveFileEvent.call loop fd bit]) := by
  unfold AeLoop.RemoveFileEvent RemoveFileEvent.call
  rw [hbit]

theorem fe2epAt_direction (d : FeType) (hd : d = AE_READABLE ∨ d = AE_WRITABLE) :
    ∃ bit, fe2epAt d = some bit ∧ (bit = EPOLLIN ∨ bit = EPOLLOUT) := by
  rcases hd with rfl | rfl
  · exact ⟨EPOLLIN, fe2epAt_readable, Or.inl rfl⟩
  · exact ⟨EPOLLOUT, fe2epAt_writable, Or.inr rfl⟩

theorem getFeKey_readable (fd : Int) : getFeKey fd AE_READABLE = fd := by
  simp [getFeKey]

theorem getFeKey_writable (fd : Int) : getFeKey fd AE_WRITABLE = wrapInt64 (fd * -1) := by
  have hRW : AE_WRITABLE ≠ AE_READABLE := by decide
  simp [getFeKey, hRW]

/-- The keys of two different pairs of non-negative descriptors and
directions differ, unless both descriptors are 0. -/
theorem getFeKey_ne (fd1 fd2 : Int) (d1 d2 : FeType)
    (h1 : 0 ≤ fd1) (h2 : 0 ≤ fd2) (r1 : isInt64 fd1) (r2 : isInt64 fd2)
    (hd1 : d1 = AE_READABLE ∨ d1 = AE_WRITABLE) (hd2 : d2 = AE_READABLE ∨ d2 = AE_WRITABLE)
    (hpos : fd1 ≠ 0 ∨ fd2 ≠ 0) (hne : ¬ (fd1 = fd2 ∧ d1 = d2)) :
    getFeKey fd1 d1 ≠ getFeKey fd2 d2 := by
  have hRW : AE_WRITABLE ≠ AE_READABLE := by decide
  obtain ⟨-, r1⟩ := r1
  obtain ⟨-, r2⟩ := r2
  rcases hd1 with rfl | rfl <;> rcases hd2 with rfl | rfl <;>
    simp only [getFeKey_readable, getFeKey_writable, wrapInt64, and_true, ne_eq,
      hRW, hRW.symm, and_false, not_false_eq_true] at hne ⊢ <;> omega

/-- Once the readable direction is gone, taking the writable bit out of the
mask leaves nothing. -/
theorem getEpollMask_without_writable (l : AeLoop) (fd : Int)
    (h : l.FileEvents (getFeKey fd AE_READABLE) = none) :
    l.getEpollMask fd &&& notUint32 EPOLLOUT = 0 := by
  rw [getEpollMask_cases, if_pos h]
  by_cases hw : l.FileEvents (getFeKey fd AE_WRITABLE) = none
  · rw [if_pos hw]; decide
  · rw [if_neg hw]; decide

/-- Once the writable direction is gone, taking the readable bit out of the
mask leaves nothing. -/
theorem getEpollMask_without_readable (l : AeLoop) (fd : Int)
    (h : l.FileEvents (getFeKey fd AE_WRITABLE) = none) :
    l.getEpollMask fd &&& notUint32 EPOLLIN = 0 := by
  rw [getEpollMask_cases, if_pos h]
  by_cases hr : l.FileEvents (getFeKey fd AE_READABLE) = none
  · rw [if_pos hr]; decide
  · rw [if_neg hr]; decide

/-- C3: the two directions of descriptor 0 have the same registry key: the
key does not identify the pair (descriptor, direction). -/
theorem getFeKey_zero_collision :
    (0 : Int) ≥ 0 ∧ isInt64 0 ∧ AE_READABLE ≠ AE_WRITABLE ∧
    getFeKey 0 AE_READABLE = getFeKey 0 AE_WRITABLE := by
  decide

/-- C4: with both directions of `fd` registered, `RemoveFileEvent` of one
direction makes one `EpollCtl` call, a MOD whose mask is the bit of the other
direction, and `RemoveFileEvent` of the other direction on the resulting loop
makes one `EpollCtl` call, a DEL. -/
theorem RemoveFileEvent_shrink (loop : AeLoop) (fd : Int) (d1 d2 : FeType)
    (hd : (d1 = AE_READABLE ∧ d2 = AE_WRITABLE) ∨ (d1 = AE_WRITABLE ∧ d2 = AE_READABLE))
    (hr : loop.FileEvents (getFeKey fd AE_READABLE) ≠ none)
    (hw : loop.FileEvents (getFeKey fd AE_WRITABLE) ≠ none) :
    ∃ l1 c1 l2 c2 bit2,
      fe2epAt d2 = some bit2 ∧
      loop.RemoveFileEvent fd d1 = some (l1, [c1]) ∧
      c1.op = EPOLL_CTL_MOD ∧ c1.op ≠ EPOLL_CTL_DEL ∧ c1.fd = fd ∧ c1.events = bit2 ∧
      l1.RemoveFileEvent fd d2 = some (l2, [c2]) ∧
      c2.op = EPOLL_CTL_DEL ∧ c2.fd = fd := by
  have hm : loop.getEpollMask fd = 5 := by
    rw [getEpollMask_cases, if_neg hr, if_neg hw]; decide
  rcases hd with ⟨rfl, rfl⟩ | ⟨rfl, rfl⟩
  · refine ⟨_, _, _, _, EPOLLOUT, fe2epAt_writable,
      RemoveFileEvent_eq loop fd _ _ fe2epAt_readable,
      ?_, ?_, rfl, ?_, RemoveFileEvent_eq _ fd _ _ fe2epAt_writable, ?_, rfl⟩
    · simp only [RemoveFileEvent.call, hm]; decide
    · simp only [RemoveFileEvent.call, hm]; decide
    · simp only [RemoveFileEvent.call, hm]; decide
    · simp only [RemoveFileEvent.call]
      rw [getEpollMask_without_writable _ fd (Function.update_same _ _ _)]
      decide
  · refine ⟨_, _, _, _, EPOLLIN, fe2epAt_readable,
      RemoveFileEvent_eq loop fd _ _ fe2epAt_writable,
      ?_, ?_, rfl, ?_, RemoveFileEvent_eq _ fd _ _ fe2epAt_readable, ?_, rfl⟩
    · simp only [RemoveFileEvent.call, hm]; decide
    · simp only [RemoveFileEvent.call, hm]; decide
    · simp only [RemoveFileEvent.call, hm]; decide
    · simp only [RemoveFileEvent.call]
      rw [getEpollMask_without_readable _ fd (Function.update_same _ _ _)]
      decide

/-- Witness of C4: descriptor 5, registered for both directions, loses the
readable direction and then the writable one. -/
theorem RemoveFileEvent_shrink_witness :
    sampleBoth.FileEvents (getFeKey 5 AE_READABLE) ≠ none ∧
    sampleBoth.FileEvents (getFeKey 5 AE_WRITABLE) ≠ none ∧
    ∃ l1 c1 l2 c2 bit2,
      fe2epAt AE_WRITABLE = some bit2 ∧
      sampleBoth.RemoveFileEvent 5 AE_READABLE = some (l1, [c1]) ∧
      c1.op = EPOLL_CTL_MOD ∧ c1.op ≠ EPOLL_CTL_DEL ∧ c1.fd = 5 ∧ c1.events = bit2 ∧
      l1.RemoveFileEvent 5 AE_WRITABLE = some (l2, [c2]) ∧
      c2.op = EPOLL_CTL_DEL ∧ c2.fd = 5 :=
  ⟨by decide, by decide,
    RemoveFileEvent_shrink sampleBoth 5 AE_READABLE AE_WRITABLE (Or.inl ⟨rfl, rfl⟩)
      (by decide) (by decide)⟩

/-- C5: for a pair `(fd, d)` that is not registered, `AddFileEvent` makes
exactly one `EpollCtl` call, on `fd`; its operation is ADD when the other
direction of `fd` is not registered either and MOD when it is, its mask is the
mask registered before (`getEpollMask`) or-ed with the bit of `d`; when the
kernel accepts the call the registry maps `(fd, d)` to an entry that carries
`fd`, `d`, `proc` and `extra`. -/
theorem AddFileEvent_subscribe (loop : AeLoop) (epollCtl : EpollCtl) (fd : Int)
    (d dOther : FeType) (proc : FileProc) (extra : Extra)
    (hd : (d = AE_READABLE ∧ dOther = AE_WRITABLE) ∨ (d = AE_WRITABLE ∧ dOther = AE_READABLE))
    (hnew : loop.FileEvents (getFeKey fd d) = none) :
    ∃ bit l1 c,
      fe2epAt d = some bit ∧
      loop.AddFileEvent epollCtl fd d proc extra = some (l1, [c]) ∧
      c.epfd = loop.fileEventFd ∧ c.fd = fd ∧
      (loop.FileEvents (getFeKey fd dOther) = none → c.op = EPOLL_CTL_ADD) ∧
      (loop.FileEvents (getFeKey fd dOther) ≠ none → c.op = EPOLL_CTL_MOD) ∧
      c.events = loop.getEpollMask fd ||| bit ∧
      (epollCtl c = true →
        l1.FileEvents (getFeKey fd d) = some ⟨fd, d, proc, extra⟩) := by
  have hdir : d = AE_READABLE ∨ d = AE_WRITABLE := by
    rcases hd with ⟨h, -⟩ | ⟨h, -⟩
    · exact Or.inl h
    · exact Or.inr h
  obtain ⟨bit, hbit, -⟩ := fe2epAt_direction d hdir
  have hno : ¬ (loop.getEpollMask fd &&& bit ≠ 0) := fun h =>
    (getEpollMask_land loop fd d bit hbit hdir).1 h hnew
  have hop1 : loop.FileEvents (getFeKey fd dOther) = none → loop.getEpollMask fd = 0 := by
    intro h
    rcases hd with ⟨rfl, rfl⟩ | ⟨rfl, rfl⟩
    · rw [getEpollMask_cases, if_pos hnew, if_pos h]; decide
    · rw [getEpollMask_cases, if_pos hnew, if_pos h]; decide
  have hop2 : loop.FileEvents (getFeKey fd dOther) ≠ none → loop.getEpollMask fd ≠ 0 := by
    intro h
    rcases hd with ⟨rfl, rfl⟩ | ⟨rfl, rfl⟩
    · rw [getEpollMask_cases, if_pos hnew, if_neg h]; decide
    · rw [getEpollMask_cases, if_pos hnew, if_neg h]; decide
  have hcall := AddFileEvent_eq loop epollCtl fd d proc extra bit hbit
  rw [if_neg hno] at hcall
  by_cases hf : epollCtl (AddFileEvent.call loop fd bit) = false
  · rw [if_pos hf] at hcall
    refine ⟨bit, _, _, hbit, hcall, rfl, rfl, ?_, ?_, rfl, ?_⟩
    · intro h; simp only [AddFileEvent.call]; rw [if_neg (not_not.2 (hop1 h))]
    · intro h; simp only [AddFileEvent.call]; rw [if_pos (hop2 h)]
    · intro h; rw [hf] at h; exact absurd h (by decide)
  · rw [if_neg hf] at hcall
    refine ⟨bit, _, _, hbit, hcall, rfl, rfl, ?_, ?_, rfl, ?_⟩
    · intro h; simp only [AddFileEvent.call]; rw [if_neg (not_not.2 (hop1 h))]
    · intro h; simp only [AddFileEvent.call]; rw [if_pos (hop2 h)]
    · intro _; exact Function.update_same _ _ _

/-- Witness of C5: on a loop where descriptor 0 is registered as writable and
nothing else, descriptor 5 is registered as readable. -/
theorem AddFileEvent_subscribe_witness :
    sampleZero.FileEvents (getFeKey 5 AE_READABLE) = none ∧
    ∃ bit l1 c,
      fe2epAt AE_READABLE = some bit ∧
      sampleZero.AddFileEvent (fun _ => true) 5 AE_READABLE 7 9 = some (l1, [c]) ∧
      c.epfd = sampleZero.fileEventFd ∧ c.fd = 5 ∧
      (sampleZero.FileEvents (getFeKey 5 AE_WRITABLE) = none → c.op = EPOLL_CTL_ADD) ∧
      (sampleZero.FileEvents (getFeKey 5 AE_WRITABLE) ≠ none → c.op = EPOLL_CTL_MOD) ∧
      c.events = sampleZero.getEpollMask 5 ||| bit ∧
      ((fun _ => true) c = true →
        l1.FileEvents (getFeKey 5 AE_READABLE) = some ⟨5, AE_READABLE, 7, 9⟩) :=
  ⟨by decide,
    AddFileEvent_subscribe sampleZero (fun _ => true) 5 AE_READABLE AE_WRITABLE 7 9
      (Or.inl ⟨rfl, rfl⟩) (by decide)⟩

/-- After `RemoveFileEvent(fd, d)` the lookup of `(fd, d)` finds nothing, and
the lookup of any other pair of a non-negative descriptor and a direction is
as before, provided `fd` and the other descriptor are not both 0. -/
theorem RemoveFileEvent_lookup (loop l1 : AeLoop) (fd fd2 : Int) (d d2 : FeType)
    (calls : List EpollCtlCall)
    (h1 : 0 ≤ fd) (h2 : 0 ≤ fd2) (r1 : isInt64 fd) (r2 : isInt64 fd2)
    (hd1 : d = AE_READABLE ∨ d = AE_WRITABLE) (hd2 : d2 = AE_READABLE ∨ d2 = AE_WRITABLE)
    (hpos : fd ≠ 0 ∨ fd2 ≠ 0) (hne : ¬ (fd2 = fd ∧ d2 = d))
    (hrm : loop.RemoveFileEvent fd d = some (l1, calls)) :
    l1.FileEvents (getFeKey fd d) = none ∧
    l1.FileEvents (getFeKey fd2 d2) = loop.FileEvents (getFeKey fd2 d2) := by
  obtain ⟨bit, hbit, -⟩ := fe2epAt_direction d hd1
  rw [RemoveFileEvent_eq loop fd d bit hbit] at hrm
  simp only [Option.some.injEq, Prod.mk.injEq] at hrm
  obtain ⟨rfl, -⟩ := hrm
  refine ⟨Function.update_same _ _ _, Function.update_noteq ?_ _ _⟩
  exact getFeKey_ne fd2 fd d2 d h2 h1 r2 r1 hd2 hd1 (Or.symm hpos) hne

/-- C6: after `AddFileEvent(0, AE_WRITABLE, 8, 10)` on a fresh loop,
`RemoveFileEvent(0, AE_READABLE)` changes the lookup of the other pair
`(0, AE_WRITABLE)`: the entry found before the call is not found after it. -/
theorem RemoveFileEvent_zero_clobbers :
    ∃ l0 c l1 calls,
      (emptyLoop 3).AddFileEvent (fun _ => true) 0 AE_WRITABLE 8 10 = some (l0, [c]) ∧
      l0.FileEvents (getFeKey 0 AE_WRITABLE) = some ⟨0, AE_WRITABLE, 8, 10⟩ ∧
      l0.RemoveFileEvent 0 AE_READABLE = some (l1, calls) ∧
      l1.FileEvents (getFeKey 0 AE_READABLE) = none ∧
      l1.FileEvents (getFeKey 0 AE_WRITABLE) = none ∧
      l1.FileEvents (getFeKey 0 AE_WRITABLE) ≠ l0.FileEvents (getFeKey 0 AE_WRITABLE) := by
  refine ⟨_, _, _, _, rfl, ?_, RemoveFileEvent_eq _ 0 _ _ fe2epAt_readable, ?_, ?_, ?_⟩
  · decide
  · decide
  · decide
  · decide

/-! ## Time events: the wait phase -/

/-- C2: after two `addTimeEvent` calls with interval 10 at time 0, both timers
are due at time 100 (`when = 10`), but the time-event list of `AeWait` holds
only the node added last (address 1); the node added first (address 0) is in
the chain, is due, and is not returned. -/
theorem AeWait_misses_due_timer (now1 now2 : Int) (epollWait : EpollWait) :
    ∃ l : AeLoop,
      runTimeOps (emptyLoop 3)
        [TimeOp.add 0 AE_NORMAL 10 1 0, TimeOp.add 0 AE_NORMAL 10 2 0] = (l, [1, 2]) ∧
      l.TimeEvents = [1, 0] ∧
      (l.teMem 0).when ≤ 100 ∧ (l.teMem 1).when ≤ 100 ∧
      (l.AeWait now1 now2 100 epollWait).tes = [1] ∧
      0 ∉ (l.AeWait now1 now2 100 epollWait).tes := by
  refine ⟨_, rfl, rfl, by decide, by decide, ?_, ?_⟩
  · simp only [AeLoop.AeWait]
    decide
  · simp only [AeLoop.AeWait]
    decide

/-! ## Time events: ids -/

theorem runTimeOps_length (ops : List TimeOp) : ∀ loop : AeLoop,
    (runTimeOps loop ops).2.length = ops.countP TimeOp.isAdd := by
  induction ops with
  | nil => intro loop; simp [runTimeOps]
  | cons op ops ih =>
    intro loop
    cases op with
    | add now mask interval proc extra =>
      simp [runTimeOps, TimeOp.isAdd, ih]
    | remove id =>
      simp [runTimeOps, TimeOp.isAdd, ih]

/-! ## Time events: rescheduling -/

theorem wrapInt64_of_isInt64 (x : Int) (h : isInt64 x) : wrapInt64 x = x := by
  obtain ⟨h1, h2⟩ := h
  unfold wrapInt64
  omega

/-- C9: when `AeProcess` dispatches a repeating (`AE_NORMAL`) time event `te`
of interval `I`, then right after the dispatch `te.when` is `D + I` (in `int64`
arithmetic), where `D` is the clock reading taken after the callback returned;
the value `T` that `te.when` held before plays no part: the new value is not
`T + I` unless `T = D`. -/
theorem AeProcess_reschedule {σ : Type} (procs : Procs σ) (D I : Int) (r : Run σ)
    (te : Ptr)
    (hmask : ((AeProcess.afterCallback procs r te).teMem te).mask = AE_NORMAL)
    (hI : ((AeProcess.afterCallback procs r te).teMem te).interval = I) :
    ((AeProcess.timeEvent procs D r te).loop.teMem te).when = wrapInt64 (D + I) ∧
    (isInt64 (D + I) → ((AeProcess.timeEvent procs D r te).loop.teMem te).when = D + I) ∧
    (∀ T : Int, (r.loop.teMem te).when = T → isInt64 (D + I) → T ≠ D →
      ((AeProcess.timeEvent procs D r te).loop.teMem te).when ≠ T + I) ∧
    ((AeProcess.timeEvent procs D r te).loop.teMem te).interval = I ∧
    ((AeProcess.timeEvent procs D r te).loop.teMem te).mask = AE_NORMAL := by
  have hne : ¬ ((AeProcess.afterCallback procs r te).teMem te).mask = AE_ONCE := by
    rw [hmask]; decide
  have hw : ((AeProcess.timeEvent procs D r te).loop.teMem te) =
      { (AeProcess.afterCallback procs r te).teMem te with when := wrapInt64 (D + I) } := by
    unfold AeProcess.afterCallback at hne hI
    simp only [AeProcess.timeEvent, AeProcess.afterCallback, if_neg hne, AeLoop.setWhen,
      Function.update_same, hI]
  rw [hw]
  refine ⟨rfl, ?_, ?_, hI, hmask⟩
  · intro h
    exact wrapInt64_of_isInt64 _ h
  · intro T _ h hTD
    show wrapInt64 (D + I) ≠ T + I
    rw [wrapInt64_of_isInt64 _ h]
    omega

/-- Witness of C9: the timer of `sampleTimer` (interval 10, `when = 10`) is
dispatched with the clock at 500. -/
theorem AeProcess_reschedule_witness :
    ((AeProcess.afterCallback idleProcs ⟨(), sampleTimer, []⟩ 0).teMem 0).mask = AE_NORMAL ∧
    ((AeProcess.afterCallback idleProcs ⟨(), sampleTimer, []⟩ 0).teMem 0).interval = 10 ∧
    (sampleTimer.teMem 0).when = 10 ∧
    ((AeProcess.timeEvent idleProcs 500 ⟨(), sampleTimer, []⟩ 0).loop.teMem 0).when
      = wrapInt64 (500 + 10) ∧
    ((AeProcess.timeEvent idleProcs 500 ⟨(), sampleTimer, []⟩ 0).loop.teMem 0).when = 510 :=
  ⟨by decide, by decide, by decide,
    (AeProcess_reschedule idleProcs 500 10 ⟨(), sampleTimer, []⟩ 0
      (by decide) (by decide)).1,
    by decide⟩

/-! ## Time events: the nearest fire time -/

/-- The scan of `nearestTime` from the start value `a`: the result is at most
`a` and at most every `when` of the chain, and it is `a` or a `when` of the chain. -/
theorem nearestTime_scan (mem : Ptr → AeTimeEvent) (chain : List Ptr) : ∀ a : Int,
    let t := chain.foldl
      (fun nearest p => if (mem p).when < nearest then (mem p).when else nearest) a
    t ≤ a ∧ (∀ p ∈ chain, t ≤ (mem p).when) ∧ (t = a ∨ ∃ p ∈ chain, (mem p).when = t) := by
  induction chain with
  | nil => intro a; simp
  | cons q rest ih =>
    intro a
    simp only [List.foldl_cons]
    by_cases h : (mem q).when < a
    · rw [if_pos h]
      obtain ⟨h1, h2, h3⟩ := ih (mem q).when
      refine ⟨by omega, ?_, ?_⟩
      · intro p hp
        rcases List.mem_cons.1 hp with rfl | hp
        · exact h1
        · exact h2 p hp
      · rcases h3 with h3 | ⟨p, hp, h3⟩
        · exact Or.inr ⟨q, List.mem_cons_self _ _, h3.symm⟩
        · exact Or.inr ⟨p, List.mem_cons_of_mem _ hp, h3⟩
    · rw [if_neg h]
      obtain ⟨h1, h2, h3⟩ := ih a
      refine ⟨h1, ?_, ?_⟩
      · intro p hp
        rcases List.mem_cons.1 hp with rfl | hp
        · omega
        · exact h2 p hp
      · rcases h3 with h3 | ⟨p, hp, h3⟩
        · exact Or.inl h3
        · exact Or.inr ⟨p, List.mem_cons_of_mem _ hp, h3⟩

/-- C10 (as stated) fails: the one timer of `sampleFarTimer` fires at 5000;
with the clock at 0, `nearestTime` returns 1000, which is not the minimum
`when` of the (non-empty) collection. -/
theorem nearestTime_not_minimum :
    sampleFarTimer.TimeEvents ≠ [] ∧
    sampleFarTimer.nearestTime 0 = 1000 ∧
    sampleFarTimer.isMinimumWhen 5000 ∧
    ¬ sampleFarTimer.isMinimumWhen (sampleFarTimer.nearestTime 0) := by
  refine ⟨by decide, by decide, ?_, ?_⟩
  · refine ⟨⟨0, by decide, by decide⟩, ?_⟩
    intro p hp
    have : p = 0 := by simpa [sampleFarTimer, AeLoop.addTimeEvent, emptyLoop] using hp
    subst this
    decide
  · rintro ⟨⟨p, hp, h⟩, -⟩
    have : p = 0 := by simpa [sampleFarTimer, AeLoop.addTimeEvent, emptyLoop] using hp
    subst this
    revert h
    decide

/-- C10 (amended): `nearestTime` returns the minimum `when` of the collection
when some `when` is at most `now + 1000` (the `int64` sum), and `now + 1000`
when every `when` is at least that. -/
theorem nearestTime_minimum (loop : AeLoop) (now : Int) :
    ((∃ p ∈ loop.TimeEvents, (loop.teMem p).when ≤ wrapInt64 (now + 1000)) →
      loop.isMinimumWhen (loop.nearestTime now)) ∧
    ((∀ p ∈ loop.TimeEvents, wrapInt64 (now + 1000) ≤ (loop.teMem p).when) →
      loop.nearestTime now = wrapInt64 (now + 1000)) := by
  obtain ⟨h1, h2, h3⟩ := nearestTime_scan loop.teMem loop.TimeEvents (wrapInt64 (now + 1000))
  constructor
  · rintro ⟨q, hq, hle⟩
    refine ⟨?_, h2⟩
    rcases h3 with h3 | h3
    · refine ⟨q, hq, ?_⟩
      have := h2 q hq
      unfold AeLoop.nearestTime
      omega
    · exact h3
  · intro hall
    rcases h3 with h3 | ⟨p, hp, h3⟩
    · exact h3
    · have := hall p hp
      unfold AeLoop.nearestTime
      omega

/-- Witness of C10 (amended): the timer of `sampleTimer` fires at 10, which is
below 0 + 1000, and `nearestTime` returns 10; the timer of `sampleFarTimer`
fires at 5000, and `nearestTime` returns 1000. -/
theorem nearestTime_minimum_witness :
    (∃ p ∈ sampleTimer.TimeEvents, (sampleTimer.teMem p).when ≤ wrapInt64 (0 + 1000)) ∧
    sampleTimer.isMinimumWhen (sampleTimer.nearestTime 0) ∧
    (∀ p ∈ sampleFarTimer.TimeEvents, wrapInt64 (0 + 1000) ≤ (sampleFarTimer.teMem p).when) ∧
    sampleFarTimer.nearestTime 0 = wrapInt64 (0 + 1000) := by
  have hex : ∃ p ∈ sampleTimer.TimeEvents,
      (sampleTimer.teMem p).when ≤ wrapInt64 (0 + 1000) := ⟨0, by decide, by decide⟩
  have hall : ∀ p ∈ sampleFarTimer.TimeEvents,
      wrapInt64 (0 + 1000) ≤ (sampleFarTimer.teMem p).when := by
    intro p hp
    have : p = 0 := by simpa [sampleFarTimer, AeLoop.addTimeEvent, emptyLoop] using hp
    subst this
    decide
  exact ⟨hex, (nearestTime_minimum sampleTimer 0).1 hex, hall,
    (nearestTime_minimum sampleFarTimer 0).2 hall⟩

/-! ## Time events: the store along an execution -/

theorem sameButWhen_refl (a : AeTimeEvent) : a.sameButWhen a :=
  ⟨rfl, rfl, rfl, rfl, rfl⟩

theorem sameButWhen_trans {a b c : AeTimeEvent} (h1 : c.sameButWhen b)
    (h2 : b.sameButWhen a) : c.sameButWhen a :=
  ⟨h1.1.trans h2.1, h1.2.1.trans h2.2.1, h1.2.2.1.trans h2.2.2.1,
    h1.2.2.2.1.trans h2.2.2.2.1, h1.2.2.2.2.trans h2.2.2.2.2⟩

theorem AddFileEvent_none (loop : AeLoop) (epollCtl : EpollCtl) (fd : Int) (d : FeType)
    (proc : FileProc) (extra : Extra) (hbit : fe2epAt d = none) :
    loop.AddFileEvent epollCtl fd d proc extra = none := by
  unfold AeLoop.AddFileEvent
  rw [hbit]

theorem RemoveFileEvent_none (loop : AeLoop) (fd : Int) (d : FeType)
    (hbit : fe2epAt d = none) : loop.RemoveFileEvent fd d = none := by
  unfold AeLoop.RemoveFileEvent
  rw [hbit]

theorem unlink_sublist (mem : Ptr → AeTimeEvent) (id : Int) (chain : List Ptr) :
    (RemoveTimeEvent.unlink mem id chain).Sublist chain := by
  induction chain with
  | nil => exact List.Sublist.refl _
  | cons p rest ih =>
    simp only [RemoveTimeEvent.unlink]
    by_cases h : (mem p).id = id
    · rw [if_pos h]
      exact List.sublist_cons_self _ _
    · rw [if_neg h]
      exact List.Sublist.cons₂ _ ih

/-- After the scan of `RemoveTimeEvent`, no node of a chain with pairwise
distinct ids carries the id. -/
theorem unlink_dead (mem : Ptr → AeTimeEvent) (id : Int) (chain : List Ptr)
    (hN : (chain.map (fun p => (mem p).id)).Nodup) :
    ∀ q ∈ RemoveTimeEvent.unlink mem id chain, (mem q).id ≠ id := by
  induction chain with
  | nil => intro q hq; simp [RemoveTimeEvent.unlink] at hq
  | cons p rest ih =>
    rw [List.map_cons, List.nodup_cons] at hN
    intro q hq
    simp only [RemoveTimeEvent.unlink] at hq
    by_cases h : (mem p).id = id
    · rw [if_pos h] at hq
      intro hqid
      apply hN.1
      rw [h, ← hqid]
      exact List.mem_map.2 ⟨q, hq, rfl⟩
    · rw [if_neg h] at hq
      rcases List.mem_cons.1 hq with rfl | hq
      · exact h
      · exact ih hN.2 q hq

/-! ## The process phase and one-shot timers -/

theorem timeEvent_loop {σ : Type} (procs : Procs σ) (now : Int) (r : Run σ) (te : Ptr) :
    (AeProcess.timeEvent procs now r te).loop =
      if ((AeProcess.afterCallback procs r te).teMem te).mask = AE_ONCE then
        (AeProcess.afterCallback procs r te).RemoveTimeEvent
          ((AeProcess.afterCallback procs r te).teMem te).id
      else
        (AeProcess.afterCallback procs r te).setWhen te
          (wrapInt64 (now + ((AeProcess.afterCallback procs r te).teMem te).interval)) := by
  unfold AeProcess.timeEvent AeProcess.afterCallback
  simp only
  split <;> rfl

theorem collectTimeEvents_subset (loop : AeLoop) (now : Int) :
    ∀ p ∈ AeWait.collectTimeEvents loop now, p ∈ loop.TimeEvents := by
  intro p hp
  unfold AeWait.collectTimeEvents at hp
  split at hp
  · simp at hp
  · next q rest hq =>
    rw [hq]
    split at hp
    · rw [List.mem_singleton.1 hp]
      exact List.mem_cons_self _ _
    · simp at hp

/-! ## The clock and the timeout of the wait phase -/

/-- A reading of `GetMsTime` is at most 2^63 / 10^6 in absolute value. -/
theorem GetMsTime_range (unixNano : Int) (h : isInt64 unixNano) :
    -9223372036854 ≤ GetMsTime unixNano ∧ GetMsTime unixNano ≤ 9223372036854 := by
  obtain ⟨h1, h2⟩ := h
  unfold GetMsTime
  split <;> omega

/-- C11: on a loop with an empty time-event collection `nearestTime` returns
`now + 1000`: the `int64` sum for any `now`, and the exact sum for every
reading `now` of `GetMsTime`. -/
theorem nearestTime_empty (loop : AeLoop) (hempty : loop.TimeEvents = []) :
    (∀ now : Int, loop.nearestTime now = wrapInt64 (now + 1000)) ∧
    (∀ unixNano : Int, isInt64 unixNano →
      loop.nearestTime (GetMsTime unixNano) = GetMsTime unixNano + 1000) := by
  have h : ∀ now : Int, loop.nearestTime now = wrapInt64 (now + 1000) := by
    intro now
    unfold AeLoop.nearestTime
    rw [hempty]
    rfl
  refine ⟨h, ?_⟩
  intro unixNano hu
  obtain ⟨h1, h2⟩ := GetMsTime_range unixNano hu
  rw [h]
  exact wrapInt64_of_isInt64 _ ⟨by omega, by omega⟩

/-- Witness of C11: the fresh loop, with the clock at 1700000000000000000 ns. -/
theorem nearestTime_empty_witness :
    (emptyLoop 3).TimeEvents = [] ∧ isInt64 1700000000000000000 ∧
    (emptyLoop 3).nearestTime (GetMsTime 1700000000000000000) =
      GetMsTime 1700000000000000000 + 1000 ∧
    (emptyLoop 3).nearestTime (GetMsTime 1700000000000000000) = 1700000001000 :=
  ⟨rfl, by decide, (nearestTime_empty (emptyLoop 3) rfl).2 1700000000000000000 (by decide),
    by decide⟩

/-- The timeout that `AeWait` passes to `EpollWait`. -/
theorem AeWait_timeout (loop : AeLoop) (now1 now2 now3 : Int) (epollWait : EpollWait) :
    (loop.AeWait now1 now2 now3 epollWait).timeout =
      if wrapInt64 (loop.nearestTime now1 - now2) ≤ 0 then 10
      else wrapInt64 (loop.nearestTime now1 - now2) := rfl

/-- The timeout that `AeWait` passes to `EpollWait` is never 0 or negative. -/
theorem AeWait_timeout_pos (loop : AeLoop) (now1 now2 now3 : Int) (epollWait : EpollWait) :
    0 < (loop.AeWait now1 now2 now3 epollWait).timeout := by
  rw [AeWait_timeout]
  split <;> omega

/-- The result of `nearestTime` is at most every `when` of the chain and at
most `now + 1000` (the `int64` sum). -/
theorem nearestTime_le (loop : AeLoop) (now : Int) :
    loop.nearestTime now ≤ wrapInt64 (now + 1000) ∧
    ∀ p ∈ loop.TimeEvents, loop.nearestTime now ≤ (loop.teMem p).when := by
  obtain ⟨h1, h2, -⟩ := nearestTime_scan loop.teMem loop.TimeEvents (wrapInt64 (now + 1000))
  exact ⟨h1, h2⟩

/-- When a time event is due and the subtraction `nearestTime() - GetMsTime()`
does not overflow, the timeout is 10. -/
theorem AeWait_timeout_floor (loop : AeLoop) (now1 now2 now3 : Int) (epollWait : EpollWait)
    (hdue : ∃ p ∈ loop.TimeEvents, (loop.teMem p).when ≤ now2)
    (hsub : isInt64 (loop.nearestTime now1 - now2)) :
    (loop.AeWait now1 now2 now3 epollWait).timeout = 10 := by
  obtain ⟨p, hp, hle⟩ := hdue
  have h := (nearestTime_le loop now1).2 p hp
  rw [AeWait_timeout, wrapInt64_of_isInt64 _ hsub, if_pos (by omega)]

/-- When the clock does not go backwards and neither `GetMsTime() + 1000` nor
`nearestTime() - GetMsTime()` overflows, the timeout is between 1 and 1000. -/
theorem AeWait_timeout_bounds (loop : AeLoop) (now1 now2 now3 : Int) (epollWait : EpollWait)
    (hclock : now1 ≤ now2) (hadd : isInt64 (now1 + 1000))
    (hsub : isInt64 (loop.nearestTime now1 - now2)) :
    1 ≤ (loop.AeWait now1 now2 now3 epollWait).timeout ∧
    (loop.AeWait now1 now2 now3 epollWait).timeout ≤ 1000 := by
  have h := (nearestTime_le loop now1).1
  rw [wrapInt64_of_isInt64 _ hadd] at h
  rw [AeWait_timeout, wrapInt64_of_isInt64 _ hsub]
  split <;> omega

/-- C12: a timer is added at time 1000 with the least `int64` as interval, so
its `when` is 1000 - 2^63; when `AeWait` computes the timeout at time 2000 the
timer is due, but the timeout passed to `EpollWait` is 2^63 - 1000, not 10. -/
theorem AeWait_timeout_overflow (now3 : Int) (epollWait : EpollWait) :
    isInt64 (-9223372036854775808) ∧
    sampleOverdue.TimeEvents = [0] ∧
    (sampleOverdue.teMem 0).when = -9223372036854774808 ∧
    (∃ p ∈ sampleOverdue.TimeEvents, (sampleOverdue.teMem p).when ≤ 2000) ∧
    (sampleOverdue.AeWait 2000 2000 now3 epollWait).timeout = 9223372036854774808 ∧
    (sampleOverdue.AeWait 2000 2000 now3 epollWait).timeout ≠ 10 := by
  have ht : (sampleOverdue.AeWait 2000 2000 now3 epollWait).timeout =
      9223372036854774808 := by
    rw [AeWait_timeout]
    decide
  refine ⟨by decide, rfl, by decide, ⟨0, by decide, by decide⟩, ht, ?_⟩
  rw [ht]
  decide

/-! ## The ready file events -/

theorem batch_of_length (res : EpollWaitResult) (h : res.n = res.events.length) :
    AeWait.batch res = res.events := by
  unfold AeWait.batch
  rw [h, Int.toNat_ofNat]
  apply List.ext_getElem
  · simp
  · intro i h1 h2
    simp [List.getD_eq_getElem?_getD, List.getElem?_eq_getElem h2]

/-! ## Removing a time event -/

theorem unlink_split (mem : Ptr → AeTimeEvent) (id : Int) (p : Ptr) (post : List Ptr)
    (hp : (mem p).id = id) : ∀ pre : List Ptr, (∀ q ∈ pre, (mem q).id ≠ id) →
    RemoveTimeEvent.unlink mem id (pre ++ p :: post) = pre ++ post := by
  intro pre
  induction pre with
  | nil =>
    intro _
    simp only [List.nil_append, RemoveTimeEvent.unlink]
    rw [if_pos hp]
  | cons a pre ih =>
    intro h
    have ha := h a (List.mem_cons_self _ _)
    have hrest := ih (fun q hq => h q (List.mem_cons_of_mem _ hq))
    show RemoveTimeEvent.unlink mem id (a :: (pre ++ p :: post)) = a :: (pre ++ post)
    rw [RemoveTimeEvent.unlink, if_neg ha, hrest]

theorem unlink_absent (mem : Ptr → AeTimeEvent) (id : Int) : ∀ chain : List Ptr,
    (∀ q ∈ chain, (mem q).id ≠ id) → RemoveTimeEvent.unlink mem id chain = chain := by
  intro chain
  induction chain with
  | nil => intro _; rfl
  | cons a chain ih =>
    intro h
    have ha := h a (List.mem_cons_self _ _)
    have hrest := ih (fun q hq => h q (List.mem_cons_of_mem _ hq))
    rw [RemoveTimeEvent.unlink, if_neg ha, hrest]

/-- C14: `RemoveTimeEvent(id)` unlinks the first node of the chain whose id is
`id` and keeps the other nodes in their order; when no node has the id the
loop is unchanged; in either case no other field of the loop changes. -/
theorem RemoveTimeEvent_unlinks (loop : AeLoop) (id : Int) :
    (∀ (pre : List Ptr) (p : Ptr) (post : List Ptr),
      loop.TimeEvents = pre ++ p :: post → (∀ q ∈ pre, (loop.teMem q).id ≠ id) →
      (loop.teMem p).id = id → (loop.RemoveTimeEvent id).TimeEvents = pre ++ post) ∧
    ((∀ q ∈ loop.TimeEvents, (loop.teMem q).id ≠ id) → loop.RemoveTimeEvent id = loop) ∧
    ((loop.RemoveTimeEvent id).FileEvents = loop.FileEvents ∧
      (loop.RemoveTimeEvent id).fileEventFd = loop.fileEventFd ∧
      (loop.RemoveTimeEvent id).timeEventNextId = loop.timeEventNextId ∧
      (loop.RemoveTimeEvent id).stop = loop.stop ∧
      (loop.RemoveTimeEvent id).teMem = loop.teMem ∧
      (loop.RemoveTimeEvent id).teBrk = loop.teBrk) := by
  refine ⟨?_, ?_, rfl, rfl, rfl, rfl, rfl, rfl⟩
  · intro pre p post hchain hpre hp
    simp only [AeLoop.RemoveTimeEvent]
    rw [hchain]
    exact unlink_split loop.teMem id p post hp pre hpre
  · intro h
    have hu := unlink_absent loop.teMem id loop.TimeEvents h
    cases loop
    simp only [AeLoop.RemoveTimeEvent] at hu ⊢
    rw [hu]

/-- Witness of C14: three timers (ids 1, 2, 3, chain 3, 2, 1); removing id 2
leaves the chain 3, 1, and removing the absent id 7 changes nothing. -/
theorem RemoveTimeEvent_unlinks_witness :
    ∃ l : AeLoop,
      (runTimeOps (emptyLoop 3) [TimeOp.add 0 AE_NORMAL 10 1 0, TimeOp.add 0 AE_NORMAL 10 2 0,
        TimeOp.add 0 AE_NORMAL 10 3 0]).1 = l ∧
      l.TimeEvents = [2] ++ 1 :: [0] ∧ (∀ q ∈ [2], (l.teMem q).id ≠ 2) ∧ (l.teMem 1).id = 2 ∧
      (l.RemoveTimeEvent 2).TimeEvents = [2] ++ [0] ∧
      (∀ q ∈ l.TimeEvents, (l.teMem q).id ≠ 7) ∧ l.RemoveTimeEvent 7 = l := by
  refine ⟨_, rfl, rfl, by decide, by decide, ?_, ?_, ?_⟩
  · exact (RemoveTimeEvent_unlinks _ 2).1 [2] 1 [0] rfl (by decide) (by decide)
  · decide
  · exact (RemoveTimeEvent_unlinks _ 7).2.1 (by decide)

/-! ## A failing subscription -/

/-- C15: `AddFileEvent` for a direction returns normally; when an `EpollCtl`
call that it made failed, the loop it returns is the loop it was given (the
registry and every other field unchanged), no entry is stored for `(fd, d)`,
and that call was its only call. -/
theorem AddFileEvent_ctl_failure (loop : AeLoop) (epollCtl : EpollCtl) (fd : Int)
    (d : FeType) (proc : FileProc) (extra : Extra)
    (hd : d = AE_READABLE ∨ d = AE_WRITABLE) :
    ∃ l1 calls,
      loop.AddFileEvent epollCtl fd d proc extra = some (l1, calls) ∧
      ((∃ c ∈ calls, epollCtl c = false) →
        l1 = loop ∧ l1.FileEvents (getFeKey fd d) = none ∧ calls.length = 1) := by
  obtain ⟨bit, hbit, -⟩ := fe2epAt_direction d hd
  rw [AddFileEvent_eq loop epollCtl fd d proc extra bit hbit]
  by_cases h0 : loop.getEpollMask fd &&& bit ≠ 0
  · rw [if_pos h0]
    refine ⟨_, _, rfl, ?_⟩
    rintro ⟨c, hc, -⟩
    exact absurd hc (List.not_mem_nil _)
  · rw [if_neg h0]
    have hnone : loop.FileEvents (getFeKey fd d) = none := by
      by_contra hne
      exact h0 ((getEpollMask_land loop fd d bit hbit hd).2 hne)
    by_cases hf : epollCtl (AddFileEvent.call loop fd bit) = false
    · rw [if_pos hf]
      exact ⟨_, _, rfl, fun _ => ⟨rfl, hnone, rfl⟩⟩
    · rw [if_neg hf]
      refine ⟨_, _, rfl, ?_⟩
      rintro ⟨c, hc, hcf⟩
      rw [List.mem_singleton.1 hc] at hcf
      exact absurd hcf hf

/-- Witness of C15: descriptor 5 is registered as readable on the fresh loop
and the kernel refuses. -/
theorem AddFileEvent_ctl_failure_witness :
    (AE_READABLE = AE_READABLE ∨ AE_READABLE = AE_WRITABLE) ∧
    (emptyLoop 3).AddFileEvent (fun _ => false) 5 AE_READABLE 7 9 =
      some (emptyLoop 3, [⟨3, EPOLL_CTL_ADD, 5, 5, EPOLLIN⟩]) ∧
    ∃ l1 calls,
      (emptyLoop 3).AddFileEvent (fun _ => false) 5 AE_READABLE 7 9 = some (l1, calls) ∧
      ((∃ c ∈ calls, (fun _ => false : EpollCtl) c = false) →
        l1 = emptyLoop 3 ∧ l1.FileEvents (getFeKey 5 AE_READABLE) = none ∧
          calls.length = 1) :=
  ⟨Or.inl rfl, rfl,
    AddFileEvent_ctl_failure (emptyLoop 3) (fun _ => false) 5 AE_READABLE 7 9 (Or.inl rfl)⟩

/-! ## The invocations of the process phase -/

theorem timeEvent_calls {σ : Type} (procs : Procs σ) (now : Int) (r : Run σ) (te : Ptr) :
    (AeProcess.timeEvent procs now r te).calls =
      r.calls ++ [Invocation.time (r.loop.teMem te).proc (r.loop.teMem te).id
        (r.loop.teMem te).extra] := by
  unfold AeProcess.timeEvent
  simp only
  split <;> rfl

theorem fileEvents_calls {σ : Type} (procs : Procs σ) (fes : List AeFileEvent) :
    ∀ r : Run σ, (fes.foldl (AeProcess.fileEvent procs) r).calls =
      r.calls ++ fes.map (fun fe => Invocation.file fe.proc fe.fd fe.extra) := by
  induction fes with
  | nil => intro r; simp
  | cons fe fes ih =>
    intro r
    rw [List.foldl_cons, ih, List.map_cons]
    simp [AeProcess.fileEvent]

theorem timeEvents_calls_length {σ : Type} (procs : Procs σ) (clock : Nat → Int)
    (tes : List Ptr) : ∀ (i : Nat) (r : Run σ),
    ∃ timeCalls : List Invocation, timeCalls.length = tes.length ∧
      (AeProcess.timeEvents procs clock i tes r).calls = r.calls ++ timeCalls := by
  induction tes with
  | nil => intro i r; exact ⟨[], rfl, by simp [AeProcess.timeEvents]⟩
  | cons t tes ih =>
    intro i r
    obtain ⟨rest, hlen, hrest⟩ := ih (i + 1) (AeProcess.timeEvent procs (clock i) r t)
    refine ⟨Invocation.time (r.loop.teMem t).proc (r.loop.teMem t).id
      (r.loop.teMem t).extra :: rest, by simp [hlen], ?_⟩
    simp only [AeProcess.timeEvents]
    rw [hrest, timeEvent_calls, List.append_assoc]
    rfl

/-! ## Relations kept by the process phase -/

theorem ApiSteps_rel (R : AeLoop → AeLoop → Prop) (hrefl : ∀ l, R l l)
    (htrans : ∀ a b c, R a b → R b c → R a c) (hapi : ∀ l1 l2, ApiStep l1 l2 → R l1 l2)
    {l1 l2 : AeLoop} (h : Relation.ReflTransGen ApiStep l1 l2) : R l1 l2 := by
  induction h with
  | refl => exact hrefl _
  | tail _ hstep ih => exact htrans _ _ _ ih (hapi _ _ hstep)

/-- A reflexive and transitive relation that holds along every call of the
registration surface and along the assignment of `te.when` holds along an
iteration of the loop over `tes`. -/
theorem timeEvent_rel (R : AeLoop → AeLoop → Prop) (hrefl : ∀ l, R l l)
    (htrans : ∀ a b c, R a b → R b c → R a c) (hapi : ∀ l1 l2, ApiStep l1 l2 → R l1 l2)
    (hset : ∀ l te when, R l (l.setWhen te when))
    {σ : Type} (procs : Procs σ) (hp : procs.ApiOnly) (now : Int) (r : Run σ) (te : Ptr) :
    R r.loop (AeProcess.timeEvent procs now r te).loop := by
  have hcb : R r.loop (AeProcess.afterCallback procs r te) :=
    ApiSteps_rel R hrefl htrans hapi (hp.2 _ _ _ _ _)
  rw [timeEvent_loop]
  split
  · exact htrans _ _ _ hcb (hapi _ _ (ApiStep.removeTime _ _))
  · exact htrans _ _ _ hcb (hset _ _ _)

theorem timeEvents_rel (R : AeLoop → AeLoop → Prop) (hrefl : ∀ l, R l l)
    (htrans : ∀ a b c, R a b → R b c → R a c) (hapi : ∀ l1 l2, ApiStep l1 l2 → R l1 l2)
    (hset : ∀ l te when, R l (l.setWhen te when))
    {σ : Type} (procs : Procs σ) (hp : procs.ApiOnly) (clock : Nat → Int) (tes : List Ptr) :
    ∀ (i : Nat) (r : Run σ), R r.loop (AeProcess.timeEvents procs clock i tes r).loop := by
  induction tes with
  | nil => intro i r; exact hrefl _
  | cons t tes ih =>
    intro i r
    simp only [AeProcess.timeEvents]
    exact htrans _ _ _ (timeEvent_rel R hrefl htrans hapi hset procs hp (clock i) r t)
      (ih (i + 1) _)

theorem fileEvents_rel (R : AeLoop → AeLoop → Prop) (hrefl : ∀ l, R l l)
    (htrans : ∀ a b c, R a b → R b c → R a c) (hapi : ∀ l1 l2, ApiStep l1 l2 → R l1 l2)
    {σ : Type} (procs : Procs σ) (hp : procs.ApiOnly) (fes : List AeFileEvent) :
    ∀ r : Run σ, R r.loop (fes.foldl (AeProcess.fileEvent procs) r).loop := by
  induction fes with
  | nil => intro r; exact hrefl _
  | cons fe fes ih =>
    intro r
    simp only [List.foldl_cons]
    refine htrans _ _ _ ?_ (ih _)
    exact ApiSteps_rel R hrefl htrans hapi (hp.1 _ _ _ _ _)

theorem AeProcess_rel (R : AeLoop → AeLoop → Prop) (hrefl : ∀ l, R l l)
    (htrans : ∀ a b c, R a b → R b c → R a c) (hapi : ∀ l1 l2, ApiStep l1 l2 → R l1 l2)
    (hset : ∀ l te when, R l (l.setWhen te when))
    {σ : Type} (l : AeLoop) (procs : Procs σ) (hp : procs.ApiOnly) (clock : Nat → Int)
    (world : σ) (tes : List Ptr) (fes : List AeFileEvent) :
    R l (l.AeProcess procs clock world tes fes).loop :=
  htrans _ _ _
    (timeEvents_rel R hrefl htrans hapi hset procs hp clock tes 0
      { world := world, loop := l, calls := [] })
    (fileEvents_rel R hrefl htrans hapi procs hp fes _)

/-- A property of the fresh loop that every call of the registration surface
and the assignment of `te.when` keep holds in every reachable loop. -/
theorem Reachable_keeps (P : AeLoop → Prop) (h0 : ∀ epollFd, P (emptyLoop epollFd))
    (hapi : ∀ l1 l2, ApiStep l1 l2 → P l1 → P l2)
    (hset : ∀ l te when, P l → P (l.setWhen te when)) {l : AeLoop} (h : Reachable l) :
    P l := by
  induction h with
  | create epollFd => exact h0 epollFd
  | api l1 l2 _ hstep ih => exact hapi _ _ hstep ih
  | process l1 procs clock world tes fes _ hp _ ih =>
    exact AeProcess_rel (fun a b => P a → P b) (fun _ h => h)
      (fun _ _ _ hab hbc h => hbc (hab h)) hapi hset l1 procs hp clock world tes fes ih

/-! ## The nodes along the process phase -/

/-- `AddFileEvent` leaves the time-event fields alone. -/
theorem AddFileEvent_time_fields (l1 l2 : AeLoop) (epollCtl : EpollCtl) (fd : Int)
    (d : FeType) (proc : FileProc) (extra : Extra) (calls : List EpollCtlCall)
    (h : l1.AddFileEvent epollCtl fd d proc extra = some (l2, calls)) :
    l2.TimeEvents = l1.TimeEvents ∧ l2.teMem = l1.teMem ∧ l2.teBrk = l1.teBrk ∧
    l2.timeEventNextId = l1.timeEventNextId := by
  cases hb : fe2epAt d with
  | none => rw [AddFileEvent_none _ _ _ _ _ _ hb] at h; cases h
  | some bit =>
    rw [AddFileEvent_eq _ _ _ _ _ _ bit hb] at h
    by_cases h0 : l1.getEpollMask fd &&& bit ≠ 0
    · rw [if_pos h0] at h
      simp only [Option.some.injEq, Prod.mk.injEq] at h
      obtain ⟨rfl, -⟩ := h
      exact ⟨rfl, rfl, rfl, rfl⟩
    · rw [if_neg h0] at h
      by_cases hf : epollCtl (AddFileEvent.call l1 fd bit) = false
      · rw [if_pos hf] at h
        simp only [Option.some.injEq, Prod.mk.injEq] at h
        obtain ⟨rfl, -⟩ := h
        exact ⟨rfl, rfl, rfl, rfl⟩
      · rw [if_neg hf] at h
        simp only [Option.some.injEq, Prod.mk.injEq] at h
        obtain ⟨rfl, -⟩ := h
        exact ⟨rfl, rfl, rfl, rfl⟩

/-- `RemoveFileEvent` leaves the time-event fields alone. -/
theorem RemoveFileEvent_time_fields (l1 l2 : AeLoop) (fd : Int) (d : FeType)
    (calls : List EpollCtlCall) (h : l1.RemoveFileEvent fd d = some (l2, calls)) :
    l2.TimeEvents = l1.TimeEvents ∧ l2.teMem = l1.teMem ∧ l2.teBrk = l1.teBrk ∧
    l2.timeEventNextId = l1.timeEventNextId := by
  cases hb : fe2epAt d with
  | none => rw [RemoveFileEvent_none _ _ _ hb] at h; cases h
  | some bit =>
    rw [RemoveFileEvent_eq _ _ _ bit hb] at h
    simp only [Option.some.injEq, Prod.mk.injEq] at h
    obtain ⟨rfl, -⟩ := h
    exact ⟨rfl, rfl, rfl, rfl⟩

theorem Ext_refl (l : AeLoop) : l.Ext l :=
  ⟨le_refl _, fun _ _ => sameButWhen_refl _, fun _ _ h => h⟩

theorem Ext_trans (l1 l2 l3 : AeLoop) (h12 : l1.Ext l2) (h23 : l2.Ext l3) : l1.Ext l3 :=
  ⟨le_trans h12.1 h23.1,
    fun p hp => sameButWhen_trans (h23.2.1 p (lt_of_lt_of_le hp h12.1)) (h12.2.1 p hp),
    fun p hp h => h12.2.2 p hp (h23.2.2 p (lt_of_lt_of_le hp h12.1) h)⟩

theorem Ext_of_time_fields {l1 l2 : AeLoop}
    (h : l2.TimeEvents = l1.TimeEvents ∧ l2.teMem = l1.teMem ∧ l2.teBrk = l1.teBrk ∧
      l2.timeEventNextId = l1.timeEventNextId) : l1.Ext l2 := by
  obtain ⟨hT, hM, hB, -⟩ := h
  exact ⟨by rw [hB], fun p _ => by rw [hM]; exact sameButWhen_refl _,
    fun p _ hp => by rw [hT] at hp; exact hp⟩

theorem addTimeEvent_Ext (l : AeLoop) (now : Int) (mask : TeType) (interval : Int)
    (proc : TimeProc) (extra : Extra) :
    l.Ext (l.addTimeEvent now mask interval proc extra).1 := by
  refine ⟨Nat.le_succ _, ?_, ?_⟩
  · intro p hp
    simp only [AeLoop.addTimeEvent]
    rw [Function.update_noteq (Nat.ne_of_lt hp)]
    exact sameButWhen_refl _
  · intro p hp hmem
    simp only [AeLoop.addTimeEvent, List.mem_cons] at hmem
    rcases hmem with rfl | hmem
    · exact absurd hp (lt_irrefl _)
    · exact hmem

theorem setWhen_Ext (l : AeLoop) (te : Ptr) (when : Int) : l.Ext (l.setWhen te when) := by
  refine ⟨le_refl _, ?_, fun _ _ h => h⟩
  intro p _
  simp only [AeLoop.setWhen]
  by_cases hp : p = te
  · subst hp
    rw [Function.update_same]
    exact ⟨rfl, rfl, rfl, rfl, rfl⟩
  · rw [Function.update_noteq hp]
    exact sameButWhen_refl _

theorem RemoveTimeEvent_Ext (l : AeLoop) (id : Int) : l.Ext (l.RemoveTimeEvent id) :=
  ⟨le_refl _, fun _ _ => sameButWhen_refl _,
    fun _ _ h => (unlink_sublist l.teMem id l.TimeEvents).subset h⟩

theorem ApiStep_Ext (l1 l2 : AeLoop) (h : ApiStep l1 l2) : l1.Ext l2 := by
  cases h with
  | addFile =>
    exact Ext_of_time_fields (AddFileEvent_time_fields _ _ _ _ _ _ _ _ (by assumption))
  | removeFile =>
    exact Ext_of_time_fields (RemoveFileEvent_time_fields _ _ _ _ _ (by assumption))
  | addTime => exact addTimeEvent_Ext _ _ _ _ _ _
  | removeTime => exact RemoveTimeEvent_Ext _ _

/-- With callbacks that stay within the registration surface, an iteration of
the loop over `tes` keeps every existing node as it was, up to `when`. -/
theorem timeEvent_Ext {σ : Type} (procs : Procs σ) (hp : procs.ApiOnly) (now : Int)
    (r : Run σ) (te : Ptr) : r.loop.Ext (AeProcess.timeEvent procs now r te).loop :=
  timeEvent_rel AeLoop.Ext Ext_refl Ext_trans ApiStep_Ext setWhen_Ext procs hp now r te

/-- With callbacks that stay within the registration surface and `tes` pointing
to existing nodes, the loop over `tes` invokes the callback of each element in
order, with the `proc`, `id` and `extra` that its node had at the start. -/
theorem timeEvents_calls {σ : Type} (procs : Procs σ) (hp : procs.ApiOnly)
    (clock : Nat → Int) (tes : List Ptr) : ∀ (i : Nat) (r : Run σ),
    (∀ te ∈ tes, te < r.loop.teBrk) →
    (AeProcess.timeEvents procs clock i tes r).calls =
      r.calls ++ tes.map (fun te => Invocation.time (r.loop.teMem te).proc
        (r.loop.teMem te).id (r.loop.teMem te).extra) := by
  induction tes with
  | nil => intro i r _; simp [AeProcess.timeEvents]
  | cons t tes ih =>
    intro i r hall
    have hext := timeEvent_Ext procs hp (clock i) r t
    have hall1 : ∀ te ∈ tes, te < (AeProcess.timeEvent procs (clock i) r t).loop.teBrk :=
      fun te hte => lt_of_lt_of_le (hall te (List.mem_cons_of_mem _ hte)) hext.1
    simp only [AeProcess.timeEvents]
    rw [ih (i + 1) _ hall1, timeEvent_calls, List.map_cons, List.append_assoc,
      List.singleton_append]
    congr 2
    apply List.map_congr_left
    intro te hte
    obtain ⟨hid, -, -, hproc, hextra⟩ := hext.2.1 te (hall te (List.mem_cons_of_mem _ hte))
    rw [hid, hproc, hextra]

/-- C17: `AeProcess(tes, fes)` makes `len(tes) + len(fes)` callback
invocations, those of `tes` first and then, in list order, the callback of each
element of `fes` with its `fd` and `extra`; with callbacks that change the loop
only through the registration surface (and `tes` pointing to existing nodes)
the invocations of `tes` are, in list order, the callback of each element with
its `id` and `extra`, so the whole sequence is fixed by `tes`, `fes` and the
nodes at the start, whatever the callbacks do to the registries. -/
theorem AeProcess_calls {σ : Type} (l : AeLoop) (procs : Procs σ) (clock : Nat → Int)
    (world : σ) (tes : List Ptr) (fes : List AeFileEvent) :
    (l.AeProcess procs clock world tes fes).calls.length = tes.length + fes.length ∧
    (∃ timeCalls : List Invocation, timeCalls.length = tes.length ∧
      (l.AeProcess procs clock world tes fes).calls =
        timeCalls ++ fes.map (fun fe => Invocation.file fe.proc fe.fd fe.extra)) ∧
    (procs.ApiOnly → (∀ te ∈ tes, te < l.teBrk) →
      (l.AeProcess procs clock world tes fes).calls =
        tes.map (fun te => Invocation.time (l.teMem te).proc (l.teMem te).id
          (l.teMem te).extra) ++
        fes.map (fun fe => Invocation.file fe.proc fe.fd fe.extra)) := by
  obtain ⟨timeCalls, hlen, htime⟩ := timeEvents_calls_length procs clock tes 0
    { world := world, loop := l, calls := [] }
  have hcalls : (l.AeProcess procs clock world tes fes).calls =
      timeCalls ++ fes.map (fun fe => Invocation.file fe.proc fe.fd fe.extra) := by
    simp only [AeLoop.AeProcess]
    rw [fileEvents_calls, htime]
    rfl
  refine ⟨?_, ⟨timeCalls, hlen, hcalls⟩, ?_⟩
  · rw [hcalls, List.length_append, List.length_map, hlen]
  · intro hp hall
    simp only [AeLoop.AeProcess]
    rw [fileEvents_calls, timeEvents_calls procs hp clock tes 0 _ hall]
    rfl

/-- Witness of C17: the one-shot timer of `sampleOnce` and two file events are
dispatched with callbacks that schedule a timer. -/
theorem AeProcess_calls_witness :
    addingProcs.ApiOnly ∧ (∀ te ∈ [0], te < sampleOnce.teBrk) ∧
    (sampleOnce.AeProcess addingProcs (fun _ => 100) () [0]
        [⟨5, AE_READABLE, 7, 9⟩, ⟨6, AE_WRITABLE, 8, 10⟩]).calls =
      [Invocation.time 1 1 0, Invocation.file 7 5 9, Invocation.file 8 6 10] := by
  have hp : addingProcs.ApiOnly :=
    ⟨fun _ _ _ _ _ => Relation.ReflTransGen.refl,
      fun _ _ l _ _ => Relation.ReflTransGen.single (ApiStep.addTime l 60 AE_NORMAL 20 2 0)⟩
  have ht : ∀ te ∈ [0], te < sampleOnce.teBrk := by decide
  refine ⟨hp, ht, ?_⟩
  rw [(AeProcess_calls sampleOnce addingProcs (fun _ => 100) () [0]
    [⟨5, AE_READABLE, 7, 9⟩, ⟨6, AE_WRITABLE, 8, 10⟩]).2.2 hp ht]
  decide

/-! ## Removing a file event of the batch being dispatched -/

/-- C16 (as stated) fails: the descriptors 5 and 6 are registered as readable
and both are reported ready, so the batch of `AeWait` holds both entries; the
callback of the first entry calls `RemoveFileEvent(6, AE_READABLE)`, after which
the registry has no entry for descriptor 6; the callback of the second entry
(callback 2, descriptor 6) is invoked all the same in that `AeProcess` call. -/
theorem AeProcess_invokes_removed :
    (sampleTwo.AeWait 0 0 0 (fun _ _ => ⟨2, [⟨1, 5⟩, ⟨1, 6⟩], by decide⟩)).fes =
      [⟨5, AE_READABLE, 1, 0⟩, ⟨6, AE_READABLE, 2, 0⟩] ∧
    sampleTwo.FileEvents (getFeKey 6 AE_READABLE) = some ⟨6, AE_READABLE, 2, 0⟩ ∧
    (AeProcess.fileEvent removingProcs ⟨(), sampleTwo, []⟩
      ⟨5, AE_READABLE, 1, 0⟩).loop.FileEvents (getFeKey 6 AE_READABLE) = none ∧
    (sampleTwo.AeProcess removingProcs (fun _ => 0) () []
        [⟨5, AE_READABLE, 1, 0⟩, ⟨6, AE_READABLE, 2, 0⟩]).calls =
      [Invocation.file 1 5 0, Invocation.file 2 6 0] ∧
    Invocation.file 2 6 0 ∈
      (sampleTwo.AeProcess removingProcs (fun _ => 0) () []
        [⟨5, AE_READABLE, 1, 0⟩, ⟨6, AE_READABLE, 2, 0⟩]).calls ∧
    (sampleTwo.AeProcess removingProcs (fun _ => 0) () []
        [⟨5, AE_READABLE, 1, 0⟩, ⟨6, AE_READABLE, 2, 0⟩]).loop.FileEvents
      (getFeKey 6 AE_READABLE) = none := by
  refine ⟨?_, by decide, by decide, by decide, by decide, by decide⟩
  simp only [AeLoop.AeWait]
  decide

/-- C16 (amended): `AeProcess` invokes the callback of every entry of the batch
`fes` it was handed, with the entry's `fd` and `extra`, whatever the callbacks
dispatched before it did to the registry (so also when one of them removed the
entry with `RemoveFileEvent`). -/
theorem AeProcess_dispatches_batch {σ : Type} (l : AeLoop) (procs : Procs σ)
    (clock : Nat → Int) (world : σ) (tes : List Ptr) (fes : List AeFileEvent)
    (fe : AeFileEvent) (hfe : fe ∈ fes) :
    Invocation.file fe.proc fe.fd fe.extra ∈ (l.AeProcess procs clock world tes fes).calls := by
  simp only [AeLoop.AeProcess]
  rw [fileEvents_calls]
  exact List.mem_append_right _ (List.mem_map.2 ⟨fe, hfe, rfl⟩)

/-- Witness of C16 (amended): the entry of descriptor 6, which the callback of
the entry of descriptor 5 removes from the registry, is dispatched. -/
theorem AeProcess_dispatches_batch_witness :
    (⟨6, AE_READABLE, 2, 0⟩ : AeFileEvent) ∈
      [(⟨5, AE_READABLE, 1, 0⟩ : AeFileEvent), ⟨6, AE_READABLE, 2, 0⟩] ∧
    Invocation.file 2 6 0 ∈
      (sampleTwo.AeProcess removingProcs (fun _ => 0) () []
        [⟨5, AE_READABLE, 1, 0⟩, ⟨6, AE_READABLE, 2, 0⟩]).calls :=
  ⟨by decide,
    AeProcess_dispatches_batch sampleTwo removingProcs (fun _ => 0) () []
      [⟨5, AE_READABLE, 1, 0⟩, ⟨6, AE_READABLE, 2, 0⟩] ⟨6, AE_READABLE, 2, 0⟩ (by decide)⟩

/-! ## Time events: which one the wait phase reports -/

/-- C19 (as stated) fails: two timers are added, id 1 first and id 2 after it;
both are due at time 100; `AeWait` reports the node of id 2, the one added
last, and not the node of id 1, the earliest-inserted one. -/
theorem AeWait_reports_latest_inserted :
    ∃ l : AeLoop,
      runTimeOps (emptyLoop 3)
        [TimeOp.add 0 AE_NORMAL 10 1 0, TimeOp.add 5 AE_NORMAL 10 2 0] = (l, [1, 2]) ∧
      (l.teMem 0).id = 1 ∧ (l.teMem 1).id = 2 ∧
      (l.teMem 0).when ≤ 100 ∧ (l.teMem 1).when ≤ 100 ∧
      (l.AeWait 100 100 100 (fun _ _ => ⟨0, [], by decide⟩)).tes = [1] ∧
      1 ∈ (l.AeWait 100 100 100 (fun _ _ => ⟨0, [], by decide⟩)).tes ∧
      0 ∉ (l.AeWait 100 100 100 (fun _ _ => ⟨0, [], by decide⟩)).tes := by
  refine ⟨_, rfl, by decide, by decide, by decide, by decide, ?_, ?_, ?_⟩
  · simp only [AeLoop.AeWait]
    decide
  · simp only [AeLoop.AeWait]
    decide
  · simp only [AeLoop.AeWait]
    decide

/-! ## The upper bound of the timeout -/

/-- C20: the timer of `sampleOverdue` has `when = 1000 - 2^63`; the clock reads
2000 inside `nearestTime` and 2001 at the timeout computation (it does not go
backwards); the timeout passed to `EpollWait` is 2^63 - 1001, above 1000. -/
theorem AeWait_timeout_above_1000 (now3 : Int) (epollWait : EpollWait) :
    (2000 : Int) ≤ 2001 ∧
    sampleOverdue.nearestTime 2000 = -9223372036854774808 ∧
    (sampleOverdue.AeWait 2000 2001 now3 epollWait).timeout = 9223372036854774807 ∧
    ¬ (1 ≤ (sampleOverdue.AeWait 2000 2001 now3 epollWait).timeout ∧
      (sampleOverdue.AeWait 2000 2001 now3 epollWait).timeout ≤ 1000) := by
  have ht : (sampleOverdue.AeWait 2000 2001 now3 epollWait).timeout =
      9223372036854774807 := by
    rw [AeWait_timeout]
    decide
  refine ⟨by decide, by decide, ht, ?_⟩
  rw [ht]
  decide

/-! ## The bookkeeping of the time-event store -/

theorem wrapInt64_succ (x : Int) : wrapInt64 (wrapInt64 x + 1) = wrapInt64 (x + 1) := by
  unfold wrapInt64
  omega

theorem Store_of_time_fields {l1 l2 : AeLoop}
    (h : l2.TimeEvents = l1.TimeEvents ∧ l2.teMem = l1.teMem ∧ l2.teBrk = l1.teBrk ∧
      l2.timeEventNextId = l1.timeEventNextId) (h1 : l1.Store) : l2.Store := by
  obtain ⟨hT, hM, hB, hN⟩ := h
  unfold AeLoop.Store at h1 ⊢
  rw [hT, hM, hB, hN]
  exact h1

theorem addTimeEvent_Store (l : AeLoop) (now : Int) (mask : TeType) (interval : Int)
    (proc : TimeProc) (extra : Extra) (h1 : l.Store) :
    (l.addTimeEvent now mask interval proc extra).1.Store := by
  obtain ⟨hN, hI, hP, hA⟩ := h1
  refine ⟨?_, ?_, ?_, ?_⟩
  · show wrapInt64 (l.timeEventNextId + 1) = wrapInt64 (((l.teBrk + 1 : Nat) : Int) + 1)
    rw [hN, wrapInt64_succ]
    push_cast
    rfl
  · intro p hp
    simp only [AeLoop.addTimeEvent] at hp ⊢
    by_cases hpb : p = l.teBrk
    · subst hpb
      rw [Function.update_same]
      exact hN
    · rw [Function.update_noteq hpb]
      exact hI p (lt_of_le_of_ne (Nat.lt_succ_iff.1 hp) hpb)
  · show List.Pairwise _ (l.teBrk :: l.TimeEvents)
    rw [List.pairwise_cons]
    exact ⟨hA, hP⟩
  · intro p hp
    simp only [AeLoop.addTimeEvent, List.mem_cons] at hp ⊢
    rcases hp with rfl | hp
    · exact Nat.lt_succ_self _
    · exact Nat.lt_succ_of_lt (hA p hp)

theorem RemoveTimeEvent_Store (l : AeLoop) (id : Int) (h1 : l.Store) :
    (l.RemoveTimeEvent id).Store := by
  obtain ⟨hN, hI, hP, hA⟩ := h1
  have hsub := unlink_sublist l.teMem id l.TimeEvents
  exact ⟨hN, hI, List.Pairwise.sublist hsub hP, fun p hp => hA p (hsub.subset hp)⟩

theorem ApiStep_Store (l1 l2 : AeLoop) (h : ApiStep l1 l2) (h1 : l1.Store) : l2.Store := by
  cases h with
  | addFile =>
    exact Store_of_time_fields (AddFileEvent_time_fields _ _ _ _ _ _ _ _ (by assumption)) h1
  | removeFile =>
    exact Store_of_time_fields (RemoveFileEvent_time_fields _ _ _ _ _ (by assumption)) h1
  | addTime => exact addTimeEvent_Store _ _ _ _ _ _ h1
  | removeTime => exact RemoveTimeEvent_Store _ _ h1

theorem setWhen_Store (l : AeLoop) (te : Ptr) (when : Int) (h1 : l.Store) :
    (l.setWhen te when).Store := by
  obtain ⟨hN, hI, hP, hA⟩ := h1
  refine ⟨hN, ?_, hP, hA⟩
  intro p hp
  rw [((setWhen_Ext l te when).2.1 p hp).1]
  exact hI p hp

theorem emptyLoop_Store (epollFd : Int) : (emptyLoop epollFd).Store := by
  have h1 : (1 : Int) = wrapInt64 (((0 : Nat) : Int) + 1) := by decide
  refine ⟨h1, ?_, ?_, ?_⟩
  · intro p hp; simp [emptyLoop] at hp
  · simp [emptyLoop]
  · intro p hp; simp [emptyLoop] at hp

/-- Every reachable loop keeps the books of its time-event store. -/
theorem Reachable_Store {l : AeLoop} (h : Reachable l) : l.Store :=
  Reachable_keeps AeLoop.Store emptyLoop_Store ApiStep_Store setWhen_Store h

/-- With fewer than 2^64 nodes created, two different allocated nodes have
different ids. -/
theorem Store_id_inj (l : AeLoop) (h : l.Store) (hb : l.teBrk ≤ 18446744073709551616)
    (p q : Ptr) (hp : p < l.teBrk) (hq : q < l.teBrk)
    (hid : (l.teMem p).id = (l.teMem q).id) : p = q := by
  have h1 := h.2.1 p hp
  have h2 := h.2.1 q hq
  rw [h1, h2] at hid
  unfold wrapInt64 at hid
  have hp2 : (p : Int) < 18446744073709551616 := by
    have : p < 18446744073709551616 := lt_of_lt_of_le hp hb
    exact_mod_cast this
  have hq2 : (q : Int) < 18446744073709551616 := by
    have : q < 18446744073709551616 := lt_of_lt_of_le hq hb
    exact_mod_cast this
  have : (p : Int) = q := by omega
  exact_mod_cast this

/-- With fewer than 2^63 - 1 nodes created, the id counter is the number of
nodes created plus 1 and the node at address `p` has the id `p + 1`. -/
theorem Store_unwrapped (l : AeLoop) (h : l.Store) (hb : l.teBrk ≤ 9223372036854775806) :
    l.timeEventNextId = (l.teBrk : Int) + 1 ∧
    ∀ p, p < l.teBrk → (l.teMem p).id = (p : Int) + 1 := by
  have hb2 : (l.teBrk : Int) ≤ 9223372036854775806 := by exact_mod_cast hb
  refine ⟨?_, ?_⟩
  · rw [h.1]
    exact wrapInt64_of_isInt64 _ ⟨by omega, by omega⟩
  · intro p hp
    have hp2 : (p : Int) < l.teBrk := by exact_mod_cast hp
    rw [h.2.1 p hp]
    exact wrapInt64_of_isInt64 _ ⟨by omega, by omega⟩

/-! ## Time events: the ids that `addTimeEvent` returns -/

theorem runTimeOps_Reachable (ops : List TimeOp) : ∀ l : AeLoop,
    Reachable l → Reachable (runTimeOps l ops).1 := by
  induction ops with
  | nil => intro l h; exact h
  | cons op ops ih =>
    intro l h
    cases op with
    | add now mask interval proc extra =>
      exact ih _ (Reachable.api _ _ h (ApiStep.addTime l now mask interval proc extra))
    | remove id =>
      exact ih _ (Reachable.api _ _ h (ApiStep.removeTime l id))

theorem runTimeOps_teBrk (ops : List TimeOp) : ∀ l : AeLoop,
    (runTimeOps l ops).1.teBrk = l.teBrk + ops.countP TimeOp.isAdd := by
  induction ops with
  | nil => intro l; simp [runTimeOps]
  | cons op ops ih =>
    intro l
    cases op with
    | add now mask interval proc extra =>
      have h := ih (l.addTimeEvent now mask interval proc extra).1
      have hb : (l.addTimeEvent now mask interval proc extra).1.teBrk = l.teBrk + 1 := rfl
      have hc : (TimeOp.add now mask interval proc extra :: ops).countP TimeOp.isAdd =
          ops.countP TimeOp.isAdd + 1 := by
        rw [List.countP_cons]; rfl
      have hrun : (runTimeOps l (TimeOp.add now mask interval proc extra :: ops)).1 =
          (runTimeOps (l.addTimeEvent now mask interval proc extra).1 ops).1 := rfl
      rw [hrun, h, hb, hc, Nat.add_assoc, Nat.add_comm 1]
    | remove id =>
      have h := ih (l.RemoveTimeEvent id)
      have hb : (l.RemoveTimeEvent id).teBrk = l.teBrk := rfl
      have hc : (TimeOp.remove id :: ops).countP TimeOp.isAdd = ops.countP TimeOp.isAdd := by
        rw [List.countP_cons]; rfl
      have hrun : (runTimeOps l (TimeOp.remove id :: ops)).1 =
          (runTimeOps (l.RemoveTimeEvent id) ops).1 := rfl
      rw [hrun, h, hb, hc]

/-- The ids returned by the `addTimeEvent` calls of a run: the `i`-th of them
(from 0) is the `int64` value of the number of nodes created before the run
plus `i + 1`. -/
theorem runTimeOps_ids (ops : List TimeOp) : ∀ l : AeLoop, l.Store →
    (runTimeOps l ops).2 =
      (List.range (ops.countP TimeOp.isAdd)).map
        (fun i : Nat => wrapInt64 ((l.teBrk : Int) + (i : Int) + 1)) := by
  induction ops with
  | nil => intro l _; rfl
  | cons op ops ih =>
    intro l hs
    cases op with
    | add now mask interval proc extra =>
      have h := ih _ (addTimeEvent_Store l now mask interval proc extra hs)
      have hb : (l.addTimeEvent now mask interval proc extra).1.teBrk = l.teBrk + 1 := rfl
      have hid : (l.addTimeEvent now mask interval proc extra).2 =
          wrapInt64 ((l.teBrk : Int) + 1) := hs.1
      have hc : (TimeOp.add now mask interval proc extra :: ops).countP TimeOp.isAdd =
          ops.countP TimeOp.isAdd + 1 := by
        rw [List.countP_cons]; rfl
      have hrun : (runTimeOps l (TimeOp.add now mask interval proc extra :: ops)).2 =
          (l.addTimeEvent now mask interval proc extra).2 ::
            (runTimeOps (l.addTimeEvent now mask interval proc extra).1 ops).2 := rfl
      rw [hrun, h, hid, hb, hc, List.range_succ_eq_map, List.map_cons, List.map_map]
      have e0 : (l.teBrk : Int) + ((0 : Nat) : Int) + 1 = (l.teBrk : Int) + 1 := by
        push_cast
        ring
      have e1 : ∀ i : Nat, ((l.teBrk + 1 : Nat) : Int) + (i : Int) + 1 =
          (l.teBrk : Int) + ((Nat.succ i : Nat) : Int) + 1 := by
        intro i
        push_cast
        ring
      rw [e0]
      refine congrArg (List.cons _) ?_
      apply List.map_congr_left
      intro i _
      rw [Function.comp_apply, e1 i]
    | remove id =>
      have h := ih _ (RemoveTimeEvent_Store l id hs)
      have hb : (l.RemoveTimeEvent id).teBrk = l.teBrk := rfl
      have hc : (TimeOp.remove id :: ops).countP TimeOp.isAdd = ops.countP TimeOp.isAdd := by
        rw [List.countP_cons]; rfl
      have hrun : (runTimeOps l (TimeOp.remove id :: ops)).2 =
          (runTimeOps (l.RemoveTimeEvent id) ops).2 := rfl
      rw [hrun, h, hb, hc]

theorem countP_isAdd_replicate (n : Nat) (now : Int) (mask : TeType) (interval : Int)
    (proc : TimeProc) (extra : Extra) :
    (List.replicate n (TimeOp.add now mask interval proc extra)).countP TimeOp.isAdd = n := by
  induction n with
  | zero => rfl
  | succ n ih => rw [List.replicate_succ, List.countP_cons, ih]; simp [TimeOp.isAdd]

/-- The `k`-th `addTimeEvent` call on a fresh loop returns the `int64` value of `k`. -/
theorem runTimeOps_kth (epollFd : Int) (ops : List TimeOp) (k : Nat) (h1 : 1 ≤ k)
    (hk : k ≤ ops.countP TimeOp.isAdd) :
    (runTimeOps (emptyLoop epollFd) ops).2[k - 1]? = some (wrapInt64 (k : Int)) := by
  rw [runTimeOps_ids ops _ (emptyLoop_Store epollFd), List.getElem?_map,
    List.getElem?_range (by omega)]
  simp only [emptyLoop, Option.map_some', Option.some.injEq]
  congr 1
  push_cast
  omega

/-- C7 (as stated) fails: on the loop built by `AeLoopCreate`, the 2^63-th
call of `addTimeEvent` returns -2^63 (the counter `timeEventNextId` is a Go
`int` and wraps), not 2^63. -/
theorem addTimeEvent_wraps :
    AeLoopCreate (Except.ok 3) = Except.ok (emptyLoop 3) ∧
    (runTimeOps (emptyLoop 3)
      (List.replicate 9223372036854775808 (TimeOp.add 0 AE_NORMAL 10 1 0))).2[
        9223372036854775808 - 1]? = some (-9223372036854775808) ∧
    (runTimeOps (emptyLoop 3)
      (List.replicate 9223372036854775808 (TimeOp.add 0 AE_NORMAL 10 1 0))).2[
        9223372036854775808 - 1]? ≠ some ((9223372036854775808 : Nat) : Int) := by
  have h := runTimeOps_kth 3
    (List.replicate 9223372036854775808 (TimeOp.add 0 AE_NORMAL 10 1 0))
    9223372036854775808 (by decide) (by rw [countP_isAdd_replicate])
  have hw : wrapInt64 ((9223372036854775808 : Nat) : Int) = -9223372036854775808 := by
    decide
  rw [hw] at h
  refine ⟨rfl, h, ?_⟩
  rw [h]
  decide

/-- C7 (amended): on the loop built by `AeLoopCreate`, whatever
`RemoveTimeEvent` calls are interleaved, the `k`-th call of `addTimeEvent`
returns `k` for every `k` from 1 to 2^63 - 1, and no other of the first
2^63 - 1 calls returns the same id. -/
theorem addTimeEvent_returns_k_int64 (epollFd : Int) (loop : AeLoop) (ops : List TimeOp)
    (k : Nat) (hc : AeLoopCreate (Except.ok epollFd) = Except.ok loop)
    (h1 : 1 ≤ k) (hk : k ≤ ops.countP TimeOp.isAdd) (hb : k ≤ 9223372036854775807) :
    (runTimeOps loop ops).2.length = ops.countP TimeOp.isAdd ∧
    (runTimeOps loop ops).2[k - 1]? = some (k : Int) ∧
    ∀ j : Nat, 1 ≤ j → j ≤ ops.countP TimeOp.isAdd → j ≤ 9223372036854775807 → j ≠ k →
      (runTimeOps loop ops).2[j - 1]? ≠ (runTimeOps loop ops).2[k - 1]? := by
  have hl : loop = emptyLoop epollFd := by
    simp only [AeLoopCreate, Except.ok.injEq] at hc
    exact hc.symm
  subst hl
  have hval : ∀ j : Nat, 1 ≤ j → j ≤ ops.countP TimeOp.isAdd → j ≤ 9223372036854775807 →
      (runTimeOps (emptyLoop epollFd) ops).2[j - 1]? = some (j : Int) := by
    intro j hj1 hj2 hj3
    have hj4 : (j : Int) ≤ 9223372036854775807 := by exact_mod_cast hj3
    rw [runTimeOps_kth epollFd ops j hj1 hj2,
      wrapInt64_of_isInt64 _ ⟨by omega, by omega⟩]
  refine ⟨runTimeOps_length ops _, hval k h1 hk hb, ?_⟩
  intro j hj1 hj2 hj3 hne
  rw [hval k h1 hk hb, hval j hj1 hj2 hj3]
  intro h
  exact hne (by exact_mod_cast Option.some.inj h)

/-- Witness of C7 (amended): three `addTimeEvent` calls with removals of the
ids 1 and 7 in between; the third call returns 3. -/
theorem addTimeEvent_returns_k_int64_witness :
    AeLoopCreate (Except.ok 3) = Except.ok (emptyLoop 3) ∧
    (runTimeOps (emptyLoop 3)
      [TimeOp.add 0 AE_ONCE 50 1 0, TimeOp.remove 1, TimeOp.add 5 AE_NORMAL 20 2 0,
        TimeOp.remove 7, TimeOp.add 9 AE_NORMAL 30 3 0]).2[3 - 1]? = some ((3 : Nat) : Int) :=
  ⟨rfl, (addTimeEvent_returns_k_int64 3 (emptyLoop 3)
    [TimeOp.add 0 AE_ONCE 50 1 0, TimeOp.remove 1, TimeOp.add 5 AE_NORMAL 20 2 0,
      TimeOp.remove 7, TimeOp.add 9 AE_NORMAL 30 3 0] 3 rfl (by decide) (by decide)
      (by decide)).2.1⟩

/-! ## Time events: ids in every reachable loop -/

theorem addTimeEvent_new_id (l : AeLoop) (now : Int) (mask : TeType) (interval : Int)
    (proc : TimeProc) (extra : Extra) :
    ((l.addTimeEvent now mask interval proc extra).1.teMem l.teBrk).id =
      l.timeEventNextId := by
  simp only [AeLoop.addTimeEvent]
  rw [Function.update_same]

/-- C18 (as stated) fails: after 2^63 - 2 calls of `addTimeEvent` on the fresh
loop the counter `timeEventNextId` is 2^63 - 1; one more call makes it -2^63,
which is smaller, and the node just added is in the collection with the id
2^63 - 1, which is not below the counter. -/
theorem timeEventNextId_wraps :
    ∃ l : AeLoop,
      l = (runTimeOps (emptyLoop 3)
        (List.replicate 9223372036854775806 (TimeOp.add 0 AE_NORMAL 10 1 0))).1 ∧
      Reachable l ∧ Reachable (l.addTimeEvent 0 AE_NORMAL 10 1 0).1 ∧
      l.timeEventNextId = 9223372036854775807 ∧
      (l.addTimeEvent 0 AE_NORMAL 10 1 0).1.timeEventNextId = -9223372036854775808 ∧
      (l.addTimeEvent 0 AE_NORMAL 10 1 0).1.timeEventNextId < l.timeEventNextId ∧
      l.teBrk ∈ (l.addTimeEvent 0 AE_NORMAL 10 1 0).1.TimeEvents ∧
      ¬ (((l.addTimeEvent 0 AE_NORMAL 10 1 0).1.teMem l.teBrk).id <
        (l.addTimeEvent 0 AE_NORMAL 10 1 0).1.timeEventNextId) := by
  refine ⟨_, rfl, ?_⟩
  have hr := runTimeOps_Reachable
    (List.replicate 9223372036854775806 (TimeOp.add 0 AE_NORMAL 10 1 0)) _
    (Reachable.create 3)
  have hbrk := runTimeOps_teBrk
    (List.replicate 9223372036854775806 (TimeOp.add 0 AE_NORMAL 10 1 0)) (emptyLoop 3)
  rw [countP_isAdd_replicate] at hbrk
  have hb0 : (emptyLoop 3).teBrk = 0 := rfl
  generalize (runTimeOps (emptyLoop 3)
    (List.replicate 9223372036854775806 (TimeOp.add 0 AE_NORMAL 10 1 0))).1 = l at hr hbrk
  have hbrk2 : l.teBrk = 9223372036854775806 := by
    rw [hbrk, hb0, Nat.zero_add]
  have hN : l.timeEventNextId = 9223372036854775807 := by
    rw [(Reachable_Store hr).1, hbrk2]
    decide
  have hN2 : (l.addTimeEvent 0 AE_NORMAL 10 1 0).1.timeEventNextId =
      -9223372036854775808 := by
    show wrapInt64 (l.timeEventNextId + 1) = -9223372036854775808
    rw [hN]
    decide
  have hid := addTimeEvent_new_id l 0 AE_NORMAL 10 1 0
  refine ⟨hr, Reachable.api _ _ hr (ApiStep.addTime l 0 AE_NORMAL 10 1 0), hN, hN2, ?_,
    List.mem_cons_self _ _, ?_⟩
  · rw [hN2, hN]
    decide
  · rw [hid, hN2, hN]
    decide

/-- C18 (amended): in every reachable loop in which at most 2^63 - 2 time
events have been created since `AeLoopCreate`, the ids of the time events of the
collection are pairwise distinct, at least 1 and below `timeEventNextId`; and a
step from it (a call of the registration surface, or `AeProcess` with callbacks
that stay within the registration surface) that ends within that bound does
not make `timeEventNextId` smaller. -/
theorem Reachable_ids_int64 (l : AeLoop) (h : Reachable l)
    (hb : l.teBrk ≤ 9223372036854775806) :
    (l.TimeEvents.map (fun p => (l.teMem p).id)).Nodup ∧
    (∀ p ∈ l.TimeEvents, 1 ≤ (l.teMem p).id ∧ (l.teMem p).id < l.timeEventNextId) ∧
    (∀ l2, ApiStep l l2 → l2.teBrk ≤ 9223372036854775806 →
      l.timeEventNextId ≤ l2.timeEventNextId) ∧
    (∀ (σ : Type) (procs : Procs σ) (clock : Nat → Int) (world : σ) (tes : List Ptr)
      (fes : List AeFileEvent), procs.ApiOnly →
      (l.AeProcess procs clock world tes fes).loop.teBrk ≤ 9223372036854775806 →
      l.timeEventNextId ≤ (l.AeProcess procs clock world tes fes).loop.timeEventNextId) := by
  have hs := Reachable_Store h
  obtain ⟨hN, hI⟩ := Store_unwrapped l hs hb
  have hmono : ∀ l2 : AeLoop, l2.Store → l.teBrk ≤ l2.teBrk →
      l2.teBrk ≤ 9223372036854775806 → l.timeEventNextId ≤ l2.timeEventNextId := by
    intro l2 hs2 hle hb2
    rw [hN, (Store_unwrapped l2 hs2 hb2).1]
    have : (l.teBrk : Int) ≤ l2.teBrk := by exact_mod_cast hle
    omega
  refine ⟨?_, ?_, ?_, ?_⟩
  · refine List.Nodup.map_on ?_ ?_
    · intro p hp q hq hid
      exact Store_id_inj l hs (le_trans hb (by decide)) p q (hs.2.2.2 p hp)
        (hs.2.2.2 q hq) hid
    · exact List.Pairwise.imp (fun hlt => (Nat.ne_of_lt hlt).symm) hs.2.2.1
  · intro p hp
    have hp1 := hs.2.2.2 p hp
    have hp2 : (p : Int) < l.teBrk := by exact_mod_cast hp1
    rw [hI p hp1, hN]
    omega
  · intro l2 hstep hb2
    exact hmono l2 (ApiStep_Store l l2 hstep hs) (ApiStep_Ext l l2 hstep).1 hb2
  · intro σ procs clock world tes fes hp hb2
    refine hmono _ ?_ ?_ hb2
    · exact AeProcess_rel (fun a b => a.Store → b.Store) (fun _ h => h)
        (fun _ _ _ hab hbc h => hbc (hab h)) ApiStep_Store setWhen_Store l procs hp clock
        world tes fes hs
    · exact (AeProcess_rel AeLoop.Ext Ext_refl Ext_trans ApiStep_Ext setWhen_Ext l procs hp
        clock world tes fes).1

/-- Witness of C18 (amended): the loop with the two timers of ids 1 and 2. -/
theorem Reachable_ids_int64_witness :
    Reachable sampleTwoTimers ∧ sampleTwoTimers.teBrk ≤ 9223372036854775806 ∧
    sampleTwoTimers.TimeEvents.map (fun p => (sampleTwoTimers.teMem p).id) = [2, 1] ∧
    (sampleTwoTimers.TimeEvents.map (fun p => (sampleTwoTimers.teMem p).id)).Nodup ∧
    (∀ p ∈ sampleTwoTimers.TimeEvents, 1 ≤ (sampleTwoTimers.teMem p).id ∧
      (sampleTwoTimers.teMem p).id < sampleTwoTimers.timeEventNextId) := by
  have hr : Reachable sampleTwoTimers := runTimeOps_Reachable _ _ (Reachable.create 3)
  have hb : sampleTwoTimers.teBrk ≤ 9223372036854775806 := by decide
  exact ⟨hr, hb, by decide, (Reachable_ids_int64 sampleTwoTimers hr hb).1,
    (Reachable_ids_int64 sampleTwoTimers hr hb).2.1⟩

/-! ## Time events: which one the wait phase reports -/

/-- C19 (amended): in every reachable loop `AeWait` returns at most one time
event; an event it returns is the head of the chain and is due, and it is the
latest-inserted one still in the collection: every other node of the collection
was created before it (has a smaller address), and is not returned, due or not. -/
theorem AeWait_reports_head_only (l : AeLoop) (now1 now2 now3 : Int) (epollWait : EpollWait)
    (h : Reachable l) :
    (l.AeWait now1 now2 now3 epollWait).tes.length ≤ 1 ∧
    ∀ te ∈ (l.AeWait now1 now2 now3 epollWait).tes,
      l.TimeEvents.head? = some te ∧ (l.teMem te).when ≤ now3 ∧
      ∀ q ∈ l.TimeEvents, q ≠ te →
        q < te ∧ q ∉ (l.AeWait now1 now2 now3 epollWait).tes := by
  have hnew := (Reachable_Store h).2.2.1
  have htes : (l.AeWait now1 now2 now3 epollWait).tes = AeWait.collectTimeEvents l now3 := rfl
  rw [htes]
  unfold AeWait.collectTimeEvents
  cases hchain : l.TimeEvents with
  | nil => simp
  | cons p rest =>
    rw [hchain, List.pairwise_cons] at hnew
    simp only
    by_cases hdue : (l.teMem p).when ≤ now3
    · rw [if_pos hdue]
      refine ⟨by simp, ?_⟩
      intro te hte
      rw [List.mem_singleton.1 hte]
      refine ⟨rfl, hdue, ?_⟩
      intro q hq hne
      rcases List.mem_cons.1 hq with rfl | hq
      · exact absurd rfl hne
      · exact ⟨hnew.1 q hq, fun hmem => hne (List.mem_singleton.1 hmem)⟩
    · rw [if_neg hdue]
      simp

/-- Witness of C19 (amended): of the two timers of `sampleTwoTimers`, both due
at time 100, `AeWait` returns the one added last (address 1, id 2); the one
added first (address 0, id 1) is due and is not returned. -/
theorem AeWait_reports_head_only_witness :
    Reachable sampleTwoTimers ∧
    (sampleTwoTimers.AeWait 100 100 100 (fun _ _ => ⟨0, [], by decide⟩)).tes = [1] ∧
    (sampleTwoTimers.teMem 1).id = 2 ∧ (sampleTwoTimers.teMem 0).id = 1 ∧
    (sampleTwoTimers.teMem 0).when ≤ 100 ∧ 0 ∈ sampleTwoTimers.TimeEvents ∧
    (0 < 1 ∧ 0 ∉ (sampleTwoTimers.AeWait 100 100 100 (fun _ _ => ⟨0, [], by decide⟩)).tes) := by
  have hr : Reachable sampleTwoTimers := runTimeOps_Reachable _ _ (Reachable.create 3)
  have htes : (sampleTwoTimers.AeWait 100 100 100 (fun _ _ => ⟨0, [], by decide⟩)).tes =
      [1] := by
    simp only [AeLoop.AeWait]
    decide
  have hmem : 1 ∈ (sampleTwoTimers.AeWait 100 100 100 (fun _ _ => ⟨0, [], by decide⟩)).tes := by
    rw [htes]
    exact List.mem_singleton.2 rfl
  exact ⟨hr, htes, by decide, by decide, by decide, by decide,
    ((AeWait_reports_head_only sampleTwoTimers 100 100 100 (fun _ _ => ⟨0, [], by decide⟩)
      hr).2 1 hmem).2.2 0 (by decide) (by decide)⟩

/-! ## The process phase and one-shot timers -/

theorem Store_rel_refl (l : AeLoop) : l.Store → l.Store := fun h => h

theorem Store_rel_trans (a b c : AeLoop) (hab : a.Store → b.Store) (hbc : b.Store → c.Store) :
    a.Store → c.Store := fun h => hbc (hab h)

theorem afterCallback_Ext {σ : Type} (procs : Procs σ) (hp : procs.ApiOnly) (r : Run σ)
    (te : Ptr) : r.loop.Ext (AeProcess.afterCallback procs r te) :=
  ApiSteps_rel AeLoop.Ext Ext_refl Ext_trans ApiStep_Ext (hp.2 _ _ _ _ _)

theorem afterCallback_Store {σ : Type} (procs : Procs σ) (hp : procs.ApiOnly) (r : Run σ)
    (te : Ptr) (h : r.loop.Store) : (AeProcess.afterCallback procs r te).Store :=
  ApiSteps_rel (fun a b => a.Store → b.Store) Store_rel_refl Store_rel_trans ApiStep_Store
    (hp.2 _ _ _ _ _) h

theorem timeEvent_Store {σ : Type} (procs : Procs σ) (hp : procs.ApiOnly) (now : Int)
    (r : Run σ) (te : Ptr) (h : r.loop.Store) :
    (AeProcess.timeEvent procs now r te).loop.Store :=
  timeEvent_rel (fun a b => a.Store → b.Store) Store_rel_refl Store_rel_trans ApiStep_Store
    setWhen_Store procs hp now r te h

theorem timeEvents_Ext {σ : Type} (procs : Procs σ) (hp : procs.ApiOnly) (clock : Nat → Int)
    (tes : List Ptr) (i : Nat) (r : Run σ) :
    r.loop.Ext (AeProcess.timeEvents procs clock i tes r).loop :=
  timeEvents_rel AeLoop.Ext Ext_refl Ext_trans ApiStep_Ext setWhen_Ext procs hp clock tes i r

theorem fileEvents_Ext {σ : Type} (procs : Procs σ) (hp : procs.ApiOnly)
    (fes : List AeFileEvent) (r : Run σ) :
    r.loop.Ext (fes.foldl (AeProcess.fileEvent procs) r).loop :=
  fileEvents_rel AeLoop.Ext Ext_refl Ext_trans ApiStep_Ext procs hp fes r

/-- The ids along the chain are pairwise distinct while fewer than 2^64 nodes
have been created. -/
theorem Store_ids_nodup (l : AeLoop) (h : l.Store) (hb : l.teBrk ≤ 18446744073709551616) :
    (l.TimeEvents.map (fun p => (l.teMem p).id)).Nodup := by
  refine List.Nodup.map_on ?_ ?_
  · intro p hp q hq hid
    exact Store_id_inj l h hb p q (h.2.2.2 p hp) (h.2.2.2 q hq) hid
  · exact List.Pairwise.imp (fun hlt => (Nat.ne_of_lt hlt).symm) h.2.2.1

/-- The iteration of a one-shot event takes its node out of the chain, while
fewer than 2^64 nodes have been created. -/
theorem timeEvent_gone {σ : Type} (procs : Procs σ) (hp : procs.ApiOnly) (now : Int)
    (r : Run σ) (te : Ptr) (hs : r.loop.Store) (hte : te < r.loop.teBrk)
    (honce : (r.loop.teMem te).mask = AE_ONCE)
    (hb : (AeProcess.timeEvent procs now r te).loop.teBrk ≤ 18446744073709551616) :
    te ∉ (AeProcess.timeEvent procs now r te).loop.TimeEvents := by
  have hext := afterCallback_Ext procs hp r te
  have hs2 := afterCallback_Store procs hp r te hs
  obtain ⟨-, hmask, -⟩ := hext.2.1 te hte
  rw [timeEvent_loop, if_pos (hmask.trans honce)] at hb ⊢
  have hb2 : (AeProcess.afterCallback procs r te).teBrk ≤ 18446744073709551616 := hb
  intro hmem
  exact unlink_dead _ _ _ (Store_ids_nodup _ hs2 hb2) te hmem rfl

/-- The loop over `tes` takes the node of every one-shot event of `tes` out of
the chain, while fewer than 2^64 nodes have been created. -/
theorem timeEvents_gone {σ : Type} (procs : Procs σ) (hp : procs.ApiOnly)
    (clock : Nat → Int) (tes : List Ptr) : ∀ (i : Nat) (r : Run σ),
    r.loop.Store → (∀ te ∈ tes, te < r.loop.teBrk) →
    (AeProcess.timeEvents procs clock i tes r).loop.teBrk ≤ 18446744073709551616 →
    ∀ te ∈ tes, (r.loop.teMem te).mask = AE_ONCE →
      te ∉ (AeProcess.timeEvents procs clock i tes r).loop.TimeEvents := by
  induction tes with
  | nil => intro i r _ _ _ te hte; exact absurd hte (List.not_mem_nil _)
  | cons t tes ih =>
    intro i r hs hall hb te hte honce
    simp only [AeProcess.timeEvents] at hb ⊢
    have hext1 := timeEvent_Ext procs hp (clock i) r t
    have hs1 := timeEvent_Store procs hp (clock i) r t hs
    have hrest := timeEvents_Ext procs hp clock tes (i + 1)
      (AeProcess.timeEvent procs (clock i) r t)
    have hall1 : ∀ te ∈ tes, te < (AeProcess.timeEvent procs (clock i) r t).loop.teBrk :=
      fun te hte => lt_of_lt_of_le (hall te (List.mem_cons_of_mem _ hte)) hext1.1
    have hlt := hall te hte
    rcases List.mem_cons.1 hte with rfl | hte
    · have hgone := timeEvent_gone procs hp (clock i) r te hs hlt honce
        (le_trans hrest.1 hb)
      exact fun hmem => hgone (hrest.2.2 te (lt_of_lt_of_le hlt hext1.1) hmem)
    · obtain ⟨-, hmask, -⟩ := hext1.2.1 te hlt
      exact ih (i + 1) _ hs1 hall1 hb te hte (hmask.trans honce)

/-- C8 (amended): on a reachable loop, with callbacks that change the loop only
through `AddFileEvent`, `RemoveFileEvent`, `addTimeEvent` and `RemoveTimeEvent`,
and `tes` a list of pointers to existing nodes: if at most 2^64 time events
have been created by the time `AeProcess` returns, then after `AeProcess` no
node of the chain carries the id of a one-shot (`AE_ONCE`) event of `tes`, the
event itself is not in the chain, and `AeWait` on the resulting loop does not
return it. -/
theorem AeProcess_once_retired {σ : Type} (l : AeLoop) (procs : Procs σ)
    (clock : Nat → Int) (world : σ) (tes : List Ptr) (fes : List AeFileEvent) (te : Ptr)
    (hl : Reachable l) (hp : procs.ApiOnly) (htes : ∀ t ∈ tes, t < l.teBrk)
    (hte : te ∈ tes) (honce : (l.teMem te).mask = AE_ONCE)
    (hb : (l.AeProcess procs clock world tes fes).loop.teBrk ≤ 18446744073709551616) :
    (∀ q ∈ (l.AeProcess procs clock world tes fes).loop.TimeEvents,
      ((l.AeProcess procs clock world tes fes).loop.teMem q).id ≠ (l.teMem te).id) ∧
    te ∉ (l.AeProcess procs clock world tes fes).loop.TimeEvents ∧
    ∀ (now1 now2 now3 : Int) (epollWait : EpollWait),
      te ∉ ((l.AeProcess procs clock world tes fes).loop.AeWait now1 now2 now3 epollWait).tes := by
  have hs := Reachable_Store hl
  have hs2 : (l.AeProcess procs clock world tes fes).loop.Store :=
    AeProcess_rel (fun a b => a.Store → b.Store) Store_rel_refl Store_rel_trans
      ApiStep_Store setWhen_Store l procs hp clock world tes fes hs
  have hext : l.Ext (l.AeProcess procs clock world tes fes).loop :=
    AeProcess_rel AeLoop.Ext Ext_refl Ext_trans ApiStep_Ext setWhen_Ext l procs hp clock
      world tes fes
  have hfile := fileEvents_Ext procs hp fes
    (AeProcess.timeEvents procs clock 0 tes { world := world, loop := l, calls := [] })
  have htime := timeEvents_Ext procs hp clock tes 0
    { world := world, loop := l, calls := [] }
  have hlt := htes te hte
  have hnot : te ∉ (l.AeProcess procs clock world tes fes).loop.TimeEvents := by
    intro hmem
    have hmid := hfile.2.2 te (lt_of_lt_of_le hlt htime.1) hmem
    exact timeEvents_gone procs hp clock tes 0 { world := world, loop := l, calls := [] }
      hs htes (le_trans hfile.1 hb) te hte honce hmid
  refine ⟨?_, hnot, ?_⟩
  · intro q hq hid
    rw [← (hext.2.1 te hlt).1] at hid
    have hqt := Store_id_inj _ hs2 hb q te (hs2.2.2.2 q hq) (lt_of_lt_of_le hlt hext.1) hid
    rw [hqt] at hq
    exact hnot hq
  · intro now1 now2 now3 epollWait hmem
    exact hnot (collectTimeEvents_subset _ now3 te hmem)

/-- Witness of C8 (amended): the one-shot timer of `sampleOnce` is dispatched;
its callback schedules another timer, which is the only node of the chain
afterwards. -/
theorem AeProcess_once_retired_witness :
    Reachable sampleOnce ∧ addingProcs.ApiOnly ∧ (∀ t ∈ [0], t < sampleOnce.teBrk) ∧
    (sampleOnce.teMem 0).mask = AE_ONCE ∧
    (sampleOnce.AeProcess addingProcs (fun _ => 100) () [0] []).loop.teBrk ≤
      18446744073709551616 ∧
    (sampleOnce.AeProcess addingProcs (fun _ => 100) () [0] []).loop.TimeEvents = [1] ∧
    (∀ q ∈ (sampleOnce.AeProcess addingProcs (fun _ => 100) () [0] []).loop.TimeEvents,
      ((sampleOnce.AeProcess addingProcs (fun _ => 100) () [0] []).loop.teMem q).id ≠
        (sampleOnce.teMem 0).id) := by
  have hr : Reachable sampleOnce :=
    Reachable.api _ _ (Reachable.create 3) (ApiStep.addTime _ 0 AE_ONCE 50 1 0)
  have hp : addingProcs.ApiOnly :=
    ⟨fun _ _ _ _ _ => Relation.ReflTransGen.refl,
      fun _ _ l _ _ => Relation.ReflTransGen.single (ApiStep.addTime l 60 AE_NORMAL 20 2 0)⟩
  have ht : ∀ t ∈ [0], t < sampleOnce.teBrk := by decide
  have hb : (sampleOnce.AeProcess addingProcs (fun _ => 100) () [0] []).loop.teBrk ≤
      18446744073709551616 := by decide
  exact ⟨hr, hp, ht, by decide, hb, by decide,
    (AeProcess_once_retired sampleOnce addingProcs (fun _ => 100) () [0] [] 0 hr hp ht
      (by decide) (by decide) hb).1⟩

/-! ## One-shot timers after the id counter has gone round -/

theorem runTimeOps_Ext (ops : List TimeOp) : ∀ l : AeLoop, l.Ext (runTimeOps l ops).1 := by
  induction ops with
  | nil => intro l; exact Ext_refl l
  | cons op ops ih =>
    intro l
    cases op with
    | add now mask interval proc extra =>
      exact Ext_trans _ _ _ (addTimeEvent_Ext l now mask interval proc extra) (ih _)
    | remove id =>
      exact Ext_trans _ _ _ (RemoveTimeEvent_Ext l id) (ih _)

/-- After `n` calls of `addTimeEvent` in a row the chain is the `n` new nodes,
the last one in front, followed by the old chain, and the new nodes carry the
mask they were given. -/
theorem runTimeOps_adds (now : Int) (mask : TeType) (interval : Int) (proc : TimeProc)
    (extra : Extra) (n : Nat) : ∀ l : AeLoop,
    (runTimeOps l (List.replicate n (TimeOp.add now mask interval proc extra))).1.TimeEvents =
      (List.range' l.teBrk n).reverse ++ l.TimeEvents ∧
    ∀ p, l.teBrk ≤ p → p < l.teBrk + n →
      ((runTimeOps l (List.replicate n (TimeOp.add now mask interval proc extra))).1.teMem
        p).mask = mask := by
  induction n with
  | zero =>
    intro l
    refine ⟨by simp [runTimeOps], ?_⟩
    intro p h1 h2
    exact absurd (lt_of_le_of_lt h1 h2) (lt_irrefl _)
  | succ n ih =>
    intro l
    obtain ⟨hchain, hmask⟩ := ih (l.addTimeEvent now mask interval proc extra).1
    have hb : (l.addTimeEvent now mask interval proc extra).1.teBrk = l.teBrk + 1 := rfl
    have hc : (l.addTimeEvent now mask interval proc extra).1.TimeEvents =
        l.teBrk :: l.TimeEvents := rfl
    have hrun : (runTimeOps l (List.replicate (n + 1)
        (TimeOp.add now mask interval proc extra))).1 =
        (runTimeOps (l.addTimeEvent now mask interval proc extra).1
          (List.replicate n (TimeOp.add now mask interval proc extra))).1 := rfl
    rw [hrun]
    refine ⟨?_, ?_⟩
    · rw [hchain, hb, hc, List.range'_succ, List.reverse_cons, List.append_assoc]
      rfl
    · intro p h1 h2
      by_cases hp : p = l.teBrk
      · subst hp
        have hext := runTimeOps_Ext (List.replicate n (TimeOp.add now mask interval proc extra))
          (l.addTimeEvent now mask interval proc extra).1
        rw [(hext.2.1 l.teBrk (by rw [hb]; exact Nat.lt_succ_self _)).2.1]
        simp [AeLoop.addTimeEvent]
      · refine hmask p ?_ ?_
        · rw [hb]
          exact Nat.succ_le_of_lt (lt_of_le_of_ne h1 (Ne.symm hp))
        · rw [hb, Nat.add_assoc, Nat.add_comm 1]
          exact h2

/-- When the head of the chain carries the same id as the one-shot node 0
further down the chain, dispatching node 0 unlinks the head and leaves node 0
in the chain. -/
theorem dispatch_duplicate_id (l : AeLoop) (clock : Nat → Int) (top : Ptr) (rest : List Ptr)
    (hchain : l.TimeEvents = top :: rest) (h0 : 0 ∈ rest)
    (hidt : (l.teMem top).id = (l.teMem 0).id) (honce : (l.teMem 0).mask = AE_ONCE) :
    0 ∈ (l.AeProcess idleProcs clock () [0] []).loop.TimeEvents := by
  show 0 ∈ (AeProcess.timeEvent idleProcs (clock 0) ⟨(), l, []⟩ 0).loop.TimeEvents
  rw [timeEvent_loop]
  have hcb : AeProcess.afterCallback idleProcs ⟨(), l, []⟩ 0 = l := rfl
  rw [hcb, if_pos honce]
  show 0 ∈ RemoveTimeEvent.unlink l.teMem (l.teMem 0).id l.TimeEvents
  rw [hchain, RemoveTimeEvent.unlink, if_pos hidt]
  exact h0

/-- After `n + 1` one-shot timers have been added to the fresh loop, with
`n + 1` equal to 1 in `int64` and `n` positive, the first timer survives its
own dispatch. -/
theorem once_survives (n : Nat) (hn : wrapInt64 ((n : Int) + 1) = 1) (hpos : 0 < n)
    (clock : Nat → Int) :
    0 < (runTimeOps (emptyLoop 3)
      (List.replicate (n + 1) (TimeOp.add 0 AE_ONCE 50 1 0))).1.teBrk ∧
    ((runTimeOps (emptyLoop 3)
      (List.replicate (n + 1) (TimeOp.add 0 AE_ONCE 50 1 0))).1.teMem 0).mask = AE_ONCE ∧
    0 ∈ ((runTimeOps (emptyLoop 3)
      (List.replicate (n + 1) (TimeOp.add 0 AE_ONCE 50 1 0))).1.AeProcess idleProcs clock ()
        [0] []).loop.TimeEvents := by
  obtain ⟨hchain, hmask⟩ := runTimeOps_adds 0 AE_ONCE 50 1 0 (n + 1) (emptyLoop 3)
  have hbrk := runTimeOps_teBrk (List.replicate (n + 1) (TimeOp.add 0 AE_ONCE 50 1 0))
    (emptyLoop 3)
  rw [countP_isAdd_replicate] at hbrk
  have hs := Reachable_Store (runTimeOps_Reachable
    (List.replicate (n + 1) (TimeOp.add 0 AE_ONCE 50 1 0)) _ (Reachable.create 3))
  have hb0 : (emptyLoop 3).teBrk = 0 := rfl
  rw [hb0] at hchain hmask hbrk
  generalize (runTimeOps (emptyLoop 3)
    (List.replicate (n + 1) (TimeOp.add 0 AE_ONCE 50 1 0))).1 = l at hchain hmask hbrk hs
  have hc0 : (emptyLoop 3).TimeEvents = [] := rfl
  rw [hc0, List.append_nil, List.range'_concat, List.reverse_append, Nat.zero_add,
    Nat.one_mul] at hchain
  have hchain2 : l.TimeEvents = n :: (List.range' 0 n).reverse := hchain
  have hbrk2 : l.teBrk = n + 1 := by rw [hbrk, Nat.zero_add]
  have hlt0 : 0 < l.teBrk := by rw [hbrk2]; exact Nat.succ_pos n
  have hltn : n < l.teBrk := by rw [hbrk2]; exact Nat.lt_succ_self n
  have h0 : 0 ∈ (List.range' 0 n).reverse :=
    List.mem_reverse.2 (List.mem_range'_1.2 ⟨le_refl _, by rw [Nat.zero_add]; exact hpos⟩)
  have hw1 : wrapInt64 (((0 : Nat) : Int) + 1) = 1 := by decide
  have hid0 : (l.teMem 0).id = 1 := by rw [hs.2.1 0 hlt0, hw1]
  have hidt : (l.teMem n).id = (l.teMem 0).id := by rw [hid0, hs.2.1 n hltn, hn]
  have honce : (l.teMem 0).mask = AE_ONCE :=
    hmask 0 (le_refl _) (by rw [Nat.zero_add]; exact Nat.succ_pos n)
  exact ⟨hlt0, honce, dispatch_duplicate_id l clock _ _ hchain2 h0 hidt honce⟩

/-- C8 (as stated) fails: 2^64 + 1 one-shot timers are added to the fresh loop,
so the first one (address 0, id 1) and the last one (id 1 again, the counter
has gone round) are both in the chain; `AeProcess` dispatches the first one,
`RemoveTimeEvent(1)` unlinks the last one, in front of it, and the first one is
still in the chain after `AeProcess`. -/
theorem AeProcess_once_survives :
    Reachable (runTimeOps (emptyLoop 3)
      (List.replicate (18446744073709551616 + 1) (TimeOp.add 0 AE_ONCE 50 1 0))).1 ∧
    idleProcs.ApiOnly ∧
    (∀ t ∈ [0], t < (runTimeOps (emptyLoop 3)
      (List.replicate (18446744073709551616 + 1) (TimeOp.add 0 AE_ONCE 50 1 0))).1.teBrk) ∧
    ((runTimeOps (emptyLoop 3)
      (List.replicate (18446744073709551616 + 1)
        (TimeOp.add 0 AE_ONCE 50 1 0))).1.teMem 0).mask = AE_ONCE ∧
    0 ∈ ((runTimeOps (emptyLoop 3)
      (List.replicate (18446744073709551616 + 1)
        (TimeOp.add 0 AE_ONCE 50 1 0))).1.AeProcess idleProcs (fun _ => 0) ()
          [0] []).loop.TimeEvents := by
  obtain ⟨h1, h2, h3⟩ := once_survives 18446744073709551616 (by decide) (by decide)
    (fun _ => 0)
  refine ⟨runTimeOps_Reachable _ _ (Reachable.create 3),
    ⟨fun _ _ _ _ _ => Relation.ReflTransGen.refl, fun _ _ _ _ _ => Relation.ReflTransGen.refl⟩,
    ?_, h2, h3⟩
  intro t ht
  rw [List.mem_singleton.1 ht]
  exact h1

/-! ## Registering a file event twice -/

theorem emptyLoop_KeysOk (epollFd : Int) : (emptyLoop epollFd).KeysOk := by
  intro k e h
  simp [emptyLoop] at h

theorem ApiStep_KeysOk (l1 l2 : AeLoop) (h : ApiStep l1 l2) (h1 : l1.KeysOk) : l2.KeysOk := by
  cases h with
  | addFile _ epollCtl fd d proc extra calls hadd =>
    cases hb : fe2epAt d with
    | none => rw [AddFileEvent_none _ _ _ _ _ _ hb] at hadd; cases hadd
    | some bit =>
      rw [AddFileEvent_eq _ _ _ _ _ _ bit hb] at hadd
      by_cases h0 : l1.getEpollMask fd &&& bit ≠ 0
      · rw [if_pos h0] at hadd
        simp only [Option.some.injEq, Prod.mk.injEq] at hadd
        obtain ⟨rfl, -⟩ := hadd
        exact h1
      · rw [if_neg h0] at hadd
        by_cases hf : epollCtl (AddFileEvent.call l1 fd bit) = false
        · rw [if_pos hf] at hadd
          simp only [Option.some.injEq, Prod.mk.injEq] at hadd
          obtain ⟨rfl, -⟩ := hadd
          exact h1
        · rw [if_neg hf] at hadd
          simp only [Option.some.injEq, Prod.mk.injEq] at hadd
          obtain ⟨rfl, -⟩ := hadd
          intro k e he
          have he1 : Function.update l1.FileEvents (getFeKey fd d)
              (some ⟨fd, d, proc, extra⟩) k = some e := he
          by_cases hk : k = getFeKey fd d
          · subst hk
            rw [Function.update_same] at he1
            cases he1
            rfl
          · rw [Function.update_noteq hk] at he1
            exact h1 k e he1
  | removeFile _ fd d calls hrm =>
    cases hb : fe2epAt d with
    | none => rw [RemoveFileEvent_none _ _ _ hb] at hrm; cases hrm
    | some bit =>
      rw [RemoveFileEvent_eq _ _ _ bit hb] at hrm
      simp only [Option.some.injEq, Prod.mk.injEq] at hrm
      obtain ⟨rfl, -⟩ := hrm
      intro k e he
      have he1 : Function.update l1.FileEvents (getFeKey fd d) none k = some e := he
      by_cases hk : k = getFeKey fd d
      · subst hk
        rw [Function.update_same] at he1
        cases he1
      · rw [Function.update_noteq hk] at he1
        exact h1 k e he1
  | addTime => exact h1
  | removeTime => exact h1

/-- In every reachable loop each entry of the registry is stored under the key
of its own descriptor and direction. -/
theorem Reachable_KeysOk {l : AeLoop} (h : Reachable l) : l.KeysOk :=
  Reachable_keeps AeLoop.KeysOk emptyLoop_KeysOk ApiStep_KeysOk (fun _ _ _ h => h) h

/-- C1: when `AddFileEvent(fd, d, ...)` is called twice in succession and the
`EpollCtl` call of the first call succeeds, the registry afterwards holds the
entry `(fd, d, proc, extra)` of the first call under the key of `(fd, d)`, and
(in a registry that stores every entry under its own key, as every reachable
one does) no other entry for `(fd, d)` anywhere; the second call makes no
`EpollCtl` call and returns the loop unchanged, so that the two calls together
make exactly one `EpollCtl` call. -/
theorem AddFileEvent_idempotent (loop l1 : AeLoop) (ctl1 ctl2 : EpollCtl) (fd : Int)
    (d : FeType) (proc proc2 : FileProc) (extra extra2 : Extra) (c : EpollCtlCall)
    (hd : d = AE_READABLE ∨ d = AE_WRITABLE)
    (h1 : loop.AddFileEvent ctl1 fd d proc extra = some (l1, [c]))
    (hok : ctl1 c = true) :
    l1.FileEvents (getFeKey fd d) = some ⟨fd, d, proc, extra⟩ ∧
    (loop.KeysOk → ∀ k e, l1.FileEvents k = some e → e.fd = fd → e.mask = d →
      k = getFeKey fd d ∧ e = ⟨fd, d, proc, extra⟩) ∧
    l1.AddFileEvent ctl2 fd d proc2 extra2 = some (l1, []) ∧
    ∀ calls2, l1.AddFileEvent ctl2 fd d proc2 extra2 = some (l1, calls2) →
      ([c] ++ calls2).length = 1 := by
  obtain ⟨bit, hbit, -⟩ := fe2epAt_direction d hd
  have hl1 : l1 = { loop with
      FileEvents := Function.update loop.FileEvents (getFeKey fd d)
        (some ⟨fd, d, proc, extra⟩) } := by
    rw [AddFileEvent_eq loop ctl1 fd d proc extra bit hbit] at h1
    by_cases h : loop.getEpollMask fd &&& bit ≠ 0
    · rw [if_pos h] at h1
      simp only [Option.some.injEq, Prod.mk.injEq] at h1
      exact absurd h1.2 (by simp)
    · rw [if_neg h] at h1
      by_cases hf : ctl1 (AddFileEvent.call loop fd bit) = false
      · rw [if_pos hf] at h1
        simp only [Option.some.injEq, Prod.mk.injEq, List.cons.injEq, and_true] at h1
        rw [h1.2, hok] at hf
        exact absurd hf (by decide)
      · rw [if_neg hf] at h1
        simp only [Option.some.injEq, Prod.mk.injEq] at h1
        exact h1.1.symm
  have hkey : l1.FileEvents (getFeKey fd d) = some ⟨fd, d, proc, extra⟩ := by
    rw [hl1]
    exact Function.update_same _ _ _
  have hother : ∀ k, k ≠ getFeKey fd d → l1.FileEvents k = loop.FileEvents k := by
    intro k hk
    rw [hl1]
    exact Function.update_noteq hk _ _
  have h2 : l1.AddFileEvent ctl2 fd d proc2 extra2 = some (l1, []) := by
    rw [AddFileEvent_eq l1 ctl2 fd d proc2 extra2 bit hbit,
      if_pos ((getEpollMask_land l1 fd d bit hbit hd).2 (by rw [hkey]; simp))]
  refine ⟨hkey, ?_, h2, ?_⟩
  · intro hkeys k e he hfd hmask
    by_cases hk : k = getFeKey fd d
    · subst hk
      have he2 : some (⟨fd, d, proc, extra⟩ : AeFileEvent) = some e := hkey.symm.trans he
      exact ⟨rfl, (Option.some.inj he2).symm⟩
    · have he2 : loop.FileEvents k = some e := by
        rw [← hother k hk]
        exact he
      have := hkeys k e he2
      rw [hfd, hmask] at this
      exact absurd this hk
  · intro calls2 hc
    rw [h2] at hc
    simp only [Option.some.injEq, Prod.mk.injEq, true_and] at hc
    subst hc
    rfl

/-- Witness of C1: descriptor 5 is registered as readable on an empty loop,
the kernel accepts; the second call changes nothing. -/
theorem AddFileEvent_idempotent_witness :
    ∃ l1 : AeLoop,
      (emptyLoop 3).AddFileEvent (fun _ => true) 5 AE_READABLE 7 9 =
        some (l1, [⟨3, EPOLL_CTL_ADD, 5, 5, EPOLLIN⟩]) ∧
      (emptyLoop 3).KeysOk ∧
      l1.FileEvents (getFeKey 5 AE_READABLE) = some ⟨5, AE_READABLE, 7, 9⟩ ∧
      (∀ k e, l1.FileEvents k = some e → e.fd = 5 → e.mask = AE_READABLE →
        k = getFeKey 5 AE_READABLE ∧ e = ⟨5, AE_READABLE, 7, 9⟩) ∧
      l1.AddFileEvent (fun _ => false) 5 AE_READABLE 8 10 = some (l1, []) := by
  have h1 : (emptyLoop 3).AddFileEvent (fun _ => true) 5 AE_READABLE 7 9 =
      some ({ emptyLoop 3 with
          FileEvents := Function.update (emptyLoop 3).FileEvents (getFeKey 5 AE_READABLE)
            (some ⟨5, AE_READABLE, 7, 9⟩) },
        [⟨3, EPOLL_CTL_ADD, 5, 5, EPOLLIN⟩]) := by
    rfl
  have h := AddFileEvent_idempotent (emptyLoop 3) _ (fun _ => true) (fun _ => false) 5
    AE_READABLE 7 8 9 10 _ (Or.inl rfl) h1 rfl
  exact ⟨_, h1, emptyLoop_KeysOk 3, h.1, h.2.1 (emptyLoop_KeysOk 3), h.2.2.1⟩

/-! ## The ready file events -/

theorem collectFileEvent_eq (loop : AeLoop) (res : EpollWaitResult) (fes : List AeFileEvent)
    (i : Nat) :
    AeWait.collectFileEvent loop res fes i =
      fes ++ AeWait.foundEntries loop (res.events.getD i ⟨0, 0⟩) := by
  unfold AeWait.collectFileEvent AeWait.foundEntries
  generalize res.events.getD i ⟨0, 0⟩ = ev
  by_cases h1 : ev.Events &&& EPOLLIN ≠ 0 <;>
  by_cases h2 : ev.Events &&& EPOLLOUT ≠ 0 <;>
  cases hr : loop.FileEvents (getFeKey ev.Fd AE_READABLE) <;>
  cases hw : loop.FileEvents (getFeKey ev.Fd AE_WRITABLE) <;>
  simp [h1, h2, hr, hw]

theorem foldl_collectFileEvent (loop : AeLoop) (res : EpollWaitResult) (is : List Nat) :
    ∀ fes : List AeFileEvent,
    is.foldl (AeWait.collectFileEvent loop res) fes =
      fes ++ (is.map (fun i => res.events.getD i ⟨0, 0⟩)).flatMap (AeWait.foundEntries loop) := by
  induction is with
  | nil => intro fes; simp
  | cons i is ih =>
    intro fes
    rw [List.foldl_cons, ih, collectFileEvent_eq, List.map_cons, List.flatMap_cons,
      List.append_assoc]

/-- The file-event list of `AeWait` is, over the reported pairs in order, what
is found under the readable key and then under the writable key of the
descriptor, for the bits that are set. -/
theorem AeWait_fes_found (loop : AeLoop) (now1 now2 now3 : Int) (epollWait : EpollWait) :
    (loop.AeWait now1 now2 now3 epollWait).fes =
      (AeWait.batch (epollWait loop.fileEventFd
        (loop.AeWait now1 now2 now3 epollWait).timeout)).flatMap (AeWait.foundEntries loop) := by
  simp only [AeLoop.AeWait, AeWait.batch]
  rw [foldl_collectFileEvent]
  rfl

/-- What is found under the key of `(fd, d)` is the registered entry of
`(fd, d)` when the registry stores every entry under its own key and `fd` is a
strictly positive `int64` registered with a direction. -/
theorem registeredEntry_of_pos (loop : AeLoop) (hk : loop.KeysOk) (fd : Int) (d : FeType)
    (hfd : 0 < fd) (hr : isInt64 fd) (hd : d = AE_READABLE ∨ d = AE_WRITABLE)
    (hgood : ∀ k e, loop.FileEvents k = some e →
      0 ≤ e.fd ∧ isInt64 e.fd ∧ (e.mask = AE_READABLE ∨ e.mask = AE_WRITABLE)) :
    loop.registeredEntry fd d = loop.FileEvents (getFeKey fd d) := by
  unfold AeLoop.registeredEntry
  cases he : loop.FileEvents (getFeKey fd d) with
  | none => rfl
  | some e =>
    obtain ⟨h0, hre, hme⟩ := hgood _ e he
    have hkey := hk _ e he
    have hsame : fd = e.fd ∧ d = e.mask := by
      by_contra hne
      exact getFeKey_ne fd e.fd d e.mask (le_of_lt hfd) h0 hr hre hd hme
        (Or.inl (ne_of_gt hfd)) hne hkey
    simp only [hsame.1, hsame.2, and_self, if_true]

end Ae
